import Mathlib

set_option maxHeartbeats 1000000
set_option maxRecDepth 4000

/-!
Verification development for tap's two-file data store
(`src/utils/tap_data_store.rs`).

Rust strings are modelled as lists of characters (`Str`); byte offsets are
character offsets, which coincide with the source's byte offsets on the
ASCII data exercised here.  Filesystem writes always succeed in the model;
the contents of the two files are carried as fields of the store.  Errors
are modelled by their kind; the human-readable messages are dropped.
-/

deriving instance DecidableEq for Except

abbrev Str := List Char

abbrev LinkValue := Str × Str

abbrev DataState := List (Str × List LinkValue)

abbrev IndexEntry := Str × Nat

/-- Rust `char::is_whitespace` (the ASCII fragment relevant to the store). -/
def isWS (c : Char) : Bool := c.isWhitespace

/-- Rust `str::trim_start`. -/
def trimL (s : Str) : Str := s.dropWhile isWS

/-- Rust `str::trim_end`. -/
def trimR (s : Str) : Str := (trimL s.reverse).reverse

/-- Rust `str::trim`. -/
def trim (s : Str) : Str := trimR (trimL s)

/-- Rust `str::ends_with("->")`. -/
def endsArrow (s : Str) : Bool :=
  match s.reverse with
  | '>' :: '-' :: _ => true
  | _ => false

/-- Helper for `trim_end_matches("->")`: strips leading ">-" pairs from a
reversed string. -/
def revStripArrows : Str → Str
  | '>' :: '-' :: rest => revStripArrows rest
  | s => s

/-- Rust `str::trim_end_matches("->")`: removes every trailing `"->"`. -/
def trimEndArrows (s : Str) : Str := (revStripArrows s.reverse).reverse

/-- Rust `str::split_once(c)`: split at the first occurrence of `c`. -/
def splitOnce : Str → Char → Option (Str × Str)
  | [], _ => none
  | x :: xs, c =>
    if x = c then some ([], xs)
    else (splitOnce xs c).map (fun ab => (x :: ab.1, ab.2))

/-- Split at every `'\n'` (auxiliary for Rust `str::lines`); never `[]`. -/
def splitNL : Str → List Str
  | [] => [[]]
  | c :: rest =>
    if c = '\n' then [] :: splitNL rest
    else
      match splitNL rest with
      | l :: ls => (c :: l) :: ls
      | [] => [[c]]

/-- Remove one trailing carriage return. -/
def stripCR (s : Str) : Str :=
  match s.reverse with
  | '\r' :: rest => rest.reverse
  | _ => s

/-- Rust `str::lines` applied to the `'\n'`-split segments: every segment but
the last was `'\n'`-terminated, so it loses one trailing `'\r'`; a trailing
empty segment (input ended with `'\n'`) yields no line. -/
def linesOf : List Str → List Str
  | [] => []
  | [seg] => if seg = [] then [] else [seg]
  | p :: q :: rest => stripCR p :: linesOf (q :: rest)

/-- Rust `str::lines`. -/
def rustLines (s : Str) : List Str := linesOf (splitNL s)

/-- Character-code lexicographic order: Rust's `Ord` on `str` (UTF-8 byte
order agrees with code-point order). -/
def strLe : Str → Str → Bool
  | [], _ => true
  | _ :: _, [] => false
  | a :: as, b :: bs =>
    if a.toNat < b.toNat then true
    else if b.toNat < a.toNat then false
    else strLe as bs

/-- Decimal rendering of a `usize`, as in the format! call writing an index
line. -/
def natChars (n : Nat) : Str := Nat.toDigits 10 n

/-- Rust `Iterator::position`. -/
def position (p : α → Bool) : List α → Option Nat
  | [] => none
  | x :: xs => if p x then some 0 else (position p xs).map (· + 1)

/-- `TapDataStoreErrorKind` (the non-test variants). -/
inductive TapDataStoreErrorKind where
  | ExecutablePathNotFound
  | ExecutablePathParentDirectoryNotFound
  | FileCreateFailed
  | FileReadFailed
  | FileReadMetadataFailed
  | FileOpenFailed
  | FileSeekFailed
  | FileWriteFailed
  | InvalidFileExtension
  | LinkAlreadyExists
  | LinkNotFound
  | ParentEntityNotFound
  | ParseError
  | ReservedKeyword

deriving instance DecidableEq for TapDataStoreErrorKind

/-- The reserved parent names checked by `validate_parent`. -/
def RESERVED : List Str :=
  [("-a").data, ("--add").data, ("-d").data, ("--delete").data,
   ("--export").data, ("--help").data, ("-i").data, ("--init").data,
   ("--import").data, ("-s").data, ("--show").data, ("-u").data,
   ("--update").data, ("--upsert").data, ("-v").data, ("--version").data,
   ("--parent-entity").data, ("here").data, ("|").data]

/-- `validate_parent`: rejects a parent that is exactly a reserved token. -/
def validateParent (parent : Str) : Except TapDataStoreErrorKind Unit :=
  if RESERVED.contains parent then .error .ReservedKeyword else .ok ()

/-- `validate_link`: rejects a link name containing `'|'`. -/
def validateLink (link : Str) : Except TapDataStoreErrorKind Unit :=
  if link.contains '|' then .error .ReservedKeyword else .ok ()

/-- Body of `Data::add_link` after validation.  Rust finds the first entry
whose name equals `parent` exactly; it errors when that entry has a link
whose trimmed name equals the raw input link, else appends the trimmed
pair; a missing parent is appended at the end with its name untrimmed.
The second component is the (possibly mutated) `self.state`. -/
def Data.addLinkAux : DataState → Str → Str → Str →
    Except TapDataStoreErrorKind Unit × DataState
  | [], parent, link, value => (.ok (), [(parent, [(trim link, trim value)])])
  | (p, links) :: rest, parent, link, value =>
    if p = parent then
      if links.any (fun lv => trim lv.1 == link) then
        (.error .LinkAlreadyExists, (p, links) :: rest)
      else (.ok (), (p, links ++ [(trim link, trim value)]) :: rest)
    else
      let r := Data.addLinkAux rest parent link value
      (r.1, (p, links) :: r.2)

/-- `Data::add_link`. -/
def Data.addLink (st : DataState) (parent link value : Str) :
    Except TapDataStoreErrorKind Unit × DataState :=
  match validateParent parent with
  | .error e => (.error e, st)
  | .ok _ =>
    match validateLink link with
    | .error e => (.error e, st)
    | .ok _ => Data.addLinkAux st parent link value

/-- `Data::get`: the parent is looked up by trimmed stored name against the
raw input; with a link, the trimmed stored link names are compared against
the trimmed input and a singleton vector is returned. -/
def Data.get (st : DataState) (parent : Str) (link : Option Str) :
    Except TapDataStoreErrorKind (List LinkValue) :=
  match validateParent parent with
  | .error e => .error e
  | .ok _ =>
    match st.find? (fun e => trim e.1 == parent) with
    | none => .error .ParentEntityNotFound
    | some pe =>
      match link with
      | none => .ok pe.2
      | some l =>
        match validateLink l with
        | .error e => .error e
        | .ok _ =>
          match pe.2.find? (fun lv => trim lv.1 == trim l) with
          | some lv => .ok [lv]
          | none => .error .LinkNotFound

/-- Removal of the first link whose trimmed name equals the raw input
(`links.iter().position(|(l, _)| l.trim() == link)` then `remove`). -/
def removeLinkAux : List LinkValue → Str → Option (List LinkValue)
  | [], _ => none
  | (a, b) :: rest, link =>
    if trim a = link then some rest
    else (removeLinkAux rest link).map (fun r => (a, b) :: r)

/-- Body of `Data::remove` after validation: the parent is found by exact
name; deleting its last link deletes the parent as well. -/
def Data.removeAux : DataState → Str → Option Str →
    Except TapDataStoreErrorKind Unit × DataState
  | [], _, _ => (.error .ParentEntityNotFound, [])
  | (p, links) :: rest, parent, ml =>
    if p = parent then
      match ml with
      | none => (.ok (), rest)
      | some l =>
        match removeLinkAux links l with
        | none => (.error .LinkNotFound, (p, links) :: rest)
        | some links2 =>
          (.ok (), if links2 = [] then rest else (p, links2) :: rest)
    else
      let r := Data.removeAux rest parent ml
      (r.1, (p, links) :: r.2)

/-- `Data::remove`. -/
def Data.remove (st : DataState) (parent : Str) (link : Option Str) :
    Except TapDataStoreErrorKind Unit × DataState :=
  match validateParent parent with
  | .error e => (.error e, st)
  | .ok _ =>
    match link with
    | some l =>
      match validateLink l with
      | .error e => (.error e, st)
      | .ok _ => Data.removeAux st parent link
    | none => Data.removeAux st parent link

/-- Within a found parent, `upsert_link` replaces the value of the first
link whose trimmed name equals the raw input, else appends the trimmed
pair. -/
def upsertLinksAux : List LinkValue → Str → Str → List LinkValue
  | [], link, value => [(trim link, trim value)]
  | (a, b) :: rest, link, value =>
    if trim a = link then (a, trim value) :: rest
    else (a, b) :: upsertLinksAux rest link value

/-- Body of `Data::upsert_link` after validation: the parent is found by
exact name; a missing parent is appended untrimmed. -/
def Data.upsertAux : DataState → Str → Str → Str → DataState
  | [], parent, link, value => [(parent, [(trim link, trim value)])]
  | (p, links) :: rest, parent, link, value =>
    if p = parent then (p, upsertLinksAux links link value) :: rest
    else (p, links) :: Data.upsertAux rest parent link value

/-- `Data::upsert_link`. -/
def Data.upsertLink (st : DataState) (parent link value : Str) :
    Except TapDataStoreErrorKind Unit × DataState :=
  match validateParent parent with
  | .error e => (.error e, st)
  | .ok _ =>
    match validateLink link with
    | .error e => (.error e, st)
    | .ok _ => (.ok (), Data.upsertAux st parent link value)

/-- `no_parent_error` inside `Data::parse_file`. -/
def noParentError (parent : Str) (links : List LinkValue) :
    Except TapDataStoreErrorKind Unit :=
  if links ≠ [] ∧ parent = [] then .error .ParseError else .ok ()

/-- `update_state_reset_temps` inside `Data::parse_file`: pushes the pending
parent and clears the pending links when both are non-empty. -/
def updateState (parent : Str) (links : List LinkValue) (state : DataState) :
    DataState × List LinkValue :=
  if parent ≠ [] ∧ links ≠ [] then (state ++ [(parent, links)], []) else (state, links)

/-- The line loop of `Data::parse_file`: a line ending with `"->"` is a
parent header (checked first), a remaining line containing `'|'` is a link
line split at the first `'|'`, blank lines are skipped, anything else is a
`ParseError`. -/
def Data.parseLines : List Str → Str → List LinkValue → DataState →
    Except TapDataStoreErrorKind DataState
  | [], parent, links, state =>
    match noParentError parent links with
    | .error e => .error e
    | .ok _ => .ok (updateState parent links state).1
  | line :: rest, parent, links, state =>
    if endsArrow line then
      match noParentError parent links with
      | .error e => .error e
      | .ok _ =>
        let st2 := updateState parent links state
        match validateParent (trimEndArrows line) with
        | .error e => .error e
        | .ok _ => Data.parseLines rest (trimEndArrows line) st2.2 st2.1
    else if line.contains '|' then
      match splitOnce line '|' with
      | none => .error .ParseError
      | some lv =>
        match validateLink lv.1 with
        | .error e => .error e
        | .ok _ => Data.parseLines rest parent (links ++ [(trim lv.1, trim lv.2)]) state
    else if trim line = [] then Data.parseLines rest parent links state
    else .error .ParseError

/-- `Data::parse_file`. -/
def Data.parseFile (s : Str) : Except TapDataStoreErrorKind DataState :=
  Data.parseLines (rustLines s) [] [] []

/-- `Data::import` for `ImportType::Tap`, given the import file's text (the
path resolution, the `.tap` extension check and the filesystem reads sit
outside the model).  Each parsed record is folded into the state with
`upsert_link`, whose result the Rust code unwraps (those errors are
impossible for parsed records). -/
def Data.importTap (st : DataState) (content : Str) :
    Except TapDataStoreErrorKind Unit × DataState :=
  match Data.parseFile content with
  | .error e => (.error e, st)
  | .ok parsed =>
    (.ok (), parsed.foldl (fun acc e =>
        e.2.foldl (fun acc2 lv => (Data.upsertLink acc2 e.1 lv.1 lv.2).2) acc) st)

/-- Order on state entries used by `Data::state_to_file_string`'s first
sort: by trimmed parent name. -/
def entryLe (a b : Str × List LinkValue) : Prop := strLe (trim a.1) (trim b.1) = true

instance : DecidableRel entryLe := fun a b => by unfold entryLe; infer_instance

/-- Order on link/value pairs used by the per-parent sort: by trimmed link
name. -/
def lvLe (a b : LinkValue) : Prop := strLe (trim a.1) (trim b.1) = true

instance : DecidableRel lvLe := fun a b => by unfold lvLe; infer_instance

/-- The in-place sorts at the top of `Data::state_to_file_string`: the state
is sorted by trimmed parent name, then every link list by trimmed link
name.  Rust's `sort_by` is a stable sort and so is insertion sort, and a
stable sort's output is uniquely determined by the comparator, so the two
agree. -/
def sortState (st : DataState) : DataState :=
  (List.insertionSort entryLe st).map (fun e => (e.1, List.insertionSort lvLe e.2))

/-- A parent header `"{parent.trim()}->"` (without the newline). -/
def headerLine (p : Str) : Str := trim p ++ ['-', '>']

/-- A link line `"  {link.trim()}|{value.trim()}"` (without the newline). -/
def linkLine (lv : LinkValue) : Str := ' ' :: ' ' :: (trim lv.1 ++ '|' :: trim lv.2)

/-- The serialized text of one state entry: header plus link lines, each
`'\n'`-terminated. -/
def entryChars (e : Str × List LinkValue) : Str :=
  (headerLine e.1 ++ ['\n']) ++ e.2.flatMap (fun lv => linkLine lv ++ ['\n'])

/-- `Data::state_to_file_string`: returns the sorted state (the Rust method
sorts `self.state` in place), the serialized text, and the (parent, offset)
entries; each offset is `res.len()` just before that parent's header is
appended. -/
def Data.stateToFileString (st : DataState) : DataState × Str × List IndexEntry :=
  let sorted := sortState st
  let folded := sorted.foldl
    (fun acc e => (acc.1 ++ entryChars e, acc.2 ++ [(trim e.1, acc.1.length)]))
    (([] : Str), ([] : List IndexEntry))
  (sorted, folded.1, folded.2)

/-- `Index::update`: replaces the whole index state with the offsets. -/
def Index.update (_state offsets : List IndexEntry) : List IndexEntry := offsets

/-- `Index::parents`. -/
def Index.parents (st : List IndexEntry) : List Str := st.map (fun e => e.1)

/-- `Index::find_parent_offset_and_length`: the first entry matching by
trimmed name on both sides; the last entry answers with length 0 (read to
EOF), any other entry with `state[elem + 1].1 - state[elem].1`.  That
subtraction is on `usize`: when the successor's offset is smaller it
underflows (a release build wraps modulo 2^64 on a 64-bit target, a debug
build aborts), so the model computes the wrapped difference explicitly
rather than truncating it to 0, which would collide with the read-to-EOF
sentinel.  A missing parent is a `ParseError`. -/
def Index.findParentOffsetAndLength (st : List IndexEntry) (parent : Str) :
    Except TapDataStoreErrorKind (Nat × Nat) :=
  match position (fun e => trim e.1 == trim parent) st with
  | none => .error .ParseError
  | some i =>
    if i = st.length - 1 then .ok ((st.getD i ([], 0)).2, 0)
    else .ok ((st.getD i ([], 0)).2,
      ((st.getD (i + 1) ([], 0)).2 + 2 ^ 64 - (st.getD i ([], 0)).2) % 2 ^ 64)

/-- Order on index entries used by `Index::state_to_file_string`'s sort. -/
def ixLe (a b : IndexEntry) : Prop := strLe (trim a.1) (trim b.1) = true

instance : DecidableRel ixLe := fun a b => by unfold ixLe; infer_instance

/-- `Index::state_to_file_string` (the Rust method also sorts `self.state`
in place): one `"{parent.trim()}|{offset}\n"` line per entry. -/
def Index.stateToFileString (st : List IndexEntry) : List IndexEntry × Str :=
  let sorted := List.insertionSort ixLe st
  (sorted, sorted.flatMap (fun e => trim e.1 ++ '|' :: natChars e.2 ++ ['\n']))

/-- The read/write facade: in-memory states of both files plus, in the
model, the current on-disk contents of both files. -/
structure DataStore where
  data : DataState
  index : List IndexEntry
  dataFile : Str
  indexFile : Str

deriving instance DecidableEq for DataStore

/-- The shared tail of every `DataStore` mutation: `data.save_to_file`,
`index.update` with the fresh offsets, `index.save_to_file`.  The old index
state is discarded by `update`. -/
def DataStore.afterSave (d : DataState) (oldIndex : List IndexEntry) : DataStore :=
  let saved := Data.stateToFileString d
  let isaved := Index.stateToFileString (Index.update oldIndex saved.2.2)
  { data := saved.1, index := isaved.1, dataFile := saved.2.1, indexFile := isaved.2 }

/-- A freshly constructed store over missing files: both files created
empty. -/
def emptyStore : DataStore := { data := [], index := [], dataFile := [], indexFile := [] }

/-- `DataStore::add_link`. -/
def DataStore.addLink (s : DataStore) (parent link value : Str) :
    Except TapDataStoreErrorKind Unit × DataStore :=
  match Data.addLink s.data parent link value with
  | (.error e, d) => (.error e, { s with data := d })
  | (.ok _, d) => (.ok (), DataStore.afterSave d s.index)

/-- `DataStore::upsert_link`. -/
def DataStore.upsertLink (s : DataStore) (parent link value : Str) :
    Except TapDataStoreErrorKind Unit × DataStore :=
  match Data.upsertLink s.data parent link value with
  | (.error e, d) => (.error e, { s with data := d })
  | (.ok _, d) => (.ok (), DataStore.afterSave d s.index)

/-- `DataStore::delete`. -/
def DataStore.delete (s : DataStore) (parent : Str) (link : Option Str) :
    Except TapDataStoreErrorKind Unit × DataStore :=
  match Data.remove s.data parent link with
  | (.error e, d) => (.error e, { s with data := d })
  | (.ok _, d) => (.ok (), DataStore.afterSave d s.index)

/-- `DataStore::import` (tap format), given the import file's text. -/
def DataStore.importTap (s : DataStore) (content : Str) :
    Except TapDataStoreErrorKind Unit × DataStore :=
  match Data.importTap s.data content with
  | (.error e, d) => (.error e, { s with data := d })
  | (.ok _, d) => (.ok (), DataStore.afterSave d s.index)

/-- `ReadDataStore::read_link` on an already loaded state:
`data.get(parent, Some(link))` then `links[0]`; the indexing is modelled
with `getD`, in bounds whenever `get` succeeds. -/
def ReadDataStore.readLink (st : DataState) (parent link : Str) :
    Except TapDataStoreErrorKind LinkValue :=
  match Data.get st parent (some link) with
  | .error e => .error e
  | .ok links => .ok (links.getD 0 ([], []))

/-- The four mutating entry points of `DataStore`. -/
inductive Mutation where
  | addLink (parent link value : Str)
  | upsertLink (parent link value : Str)
  | delete (parent : Str) (link : Option Str)
  | importTap (content : Str)

/-- Dispatch of one mutation. -/
def DataStore.applyMutation (s : DataStore) : Mutation →
    Except TapDataStoreErrorKind Unit × DataStore
  | .addLink p l v => s.addLink p l v
  | .upsertLink p l v => s.upsertLink p l v
  | .delete p l => s.delete p l
  | .importTap c => s.importTap c

/-- Run a sequence of mutations, keeping the store a failed mutation leaves
behind. -/
def runMutations (s : DataStore) (ms : List Mutation) : DataStore :=
  ms.foldl (fun s m => (s.applyMutation m).2) s

/-- The parents present in a data file's text: the name carried by each
header line, i.e. each line ending with `"->"` (the parser's criterion for
a header), stripped of its trailing arrows. -/
def fileParents (s : Str) : List Str :=
  (rustLines s).filterMap (fun l => if endsArrow l then some (trimEndArrows l) else none)

/-- A parent name that serializes to a header line the parser reads back
unchanged: non-blank, newline-free, not ending in `"->"`, not reserved
(all after trimming). -/
def goodParentB (p : Str) : Bool :=
  decide (trim p ≠ []) && !decide ('\n' ∈ trim p) && !endsArrow (trim p)
    && !RESERVED.contains (trim p)

/-- A link name whose stored form stays on one line and stays left of the
first separator: newline-free and `'|'`-free after trimming. -/
def goodLinkB (l : Str) : Bool :=
  !decide ('\n' ∈ trim l) && !decide ('|' ∈ trim l)

/-- A value whose stored form stays on one line and cannot turn its link
line into a header: newline-free and not ending in `"->"` after
trimming. -/
def goodValueB (v : Str) : Bool :=
  !decide ('\n' ∈ trim v) && !endsArrow (trim v)

/-- A state entry whose serialized block parses back: good parent, at least
one link, good links and values. -/
def entryOKB (e : Str × List LinkValue) : Bool :=
  goodParentB e.1 && decide (e.2 ≠ []) &&
    e.2.all (fun lv => goodLinkB lv.1 && goodValueB lv.2)

/-- Every entry of the state is well-formed. -/
def invStateB (st : DataState) : Bool := st.all entryOKB

/-- Mutations whose arguments (for an import: whose parsed records) are
well-formed in the sense of the predicates above. -/
def goodMutationB : Mutation → Bool
  | .addLink p l v => goodParentB p && goodLinkB l && goodValueB v
  | .upsertLink p l v => goodParentB p && goodLinkB l && goodValueB v
  | .delete _ _ => true
  | .importTap content =>
    match Data.parseFile content with
    | .ok parsed =>
      parsed.all (fun e => goodParentB e.1 &&
        e.2.all (fun lv => goodLinkB lv.1 && goodValueB lv.2))
    | .error _ => true

/-- Recursive form of the serializing fold in `Data::state_to_file_string`:
`off` is the number of characters already written, i.e. `res.len()`. -/
def serializeFrom : Nat → DataState → Str × List IndexEntry
  | _, [] => ([], [])
  | off, e :: rest =>
    (entryChars e ++ (serializeFrom (off + (entryChars e).length) rest).1,
     (trim e.1, off) :: (serializeFrom (off + (entryChars e).length) rest).2)

/-- The serialized lines of one state entry. -/
def entryLines (e : Str × List LinkValue) : List Str :=
  headerLine e.1 :: e.2.map linkLine

/-- A link list as stored after parsing back: names and values trimmed. -/
def canonLinks (links : List LinkValue) : List LinkValue :=
  links.map (fun lv => (trim lv.1, trim lv.2))

/-- A state as recovered by parsing its own serialization: parent names
trimmed, link names and values trimmed. -/
def canonState (st : DataState) : DataState :=
  st.map (fun e => (trim e.1, canonLinks e.2))

/-! ### Lemmas about the string primitives -/

theorem trimL_head_not_ws : ∀ (s : Str) (c : Char), (trimL s).head? = some c → isWS c = false := by
  intro s
  induction s with
  | nil => intro c h; simp [trimL] at h
  | cons a rest ih =>
    intro c h
    by_cases ha : isWS a
    · rw [trimL, List.dropWhile_cons, if_pos ha] at h
      exact ih c h
    · rw [trimL, List.dropWhile_cons, if_neg ha] at h
      simp only [List.head?_cons, Option.some.injEq] at h
      subst h
      simpa using ha

theorem trimL_cons_not_ws {c : Char} (s : Str) (h : isWS c = false) :
    trimL (c :: s) = c :: s := by
  rw [trimL, List.dropWhile_cons, if_neg (by simp [h])]

theorem trimL_idem (s : Str) : trimL (trimL s) = trimL s := by
  cases hs : trimL s with
  | nil => simp [trimL]
  | cons c rest =>
    have hc : isWS c = false := trimL_head_not_ws s c (by simp [hs])
    exact trimL_cons_not_ws rest hc

theorem trimL_append_last (a : Str) (c : Char) :
    trimL (a ++ [c]) = if trimL a = [] then (if isWS c then [] else [c]) else trimL a ++ [c] := by
  induction a with
  | nil => by_cases h : isWS c <;> simp [trimL, List.dropWhile, h]
  | cons x a ih =>
    by_cases hx : isWS x
    · rw [List.cons_append, trimL, List.dropWhile_cons, if_pos (by simp [hx])]
      rw [trimL] at ih
      rw [ih]
      rw [show trimL (x :: a) = trimL a by
        rw [trimL, List.dropWhile_cons, if_pos (by simp [hx])]; rfl]
    · rw [List.cons_append, trimL, List.dropWhile_cons, if_neg (by simp [hx])]
      rw [trimL_cons_not_ws a (by simpa using hx)]
      simp

theorem trimR_nil : trimR [] = [] := by simp [trimR, trimL]

theorem trimR_cons (c : Char) (u : Str) :
    trimR (c :: u) =
      if trimR u = [] then (if isWS c then [] else [c]) else c :: trimR u := by
  have hrev : trimR u = [] ↔ trimL u.reverse = [] := by
    constructor
    · intro h
      have := congrArg List.reverse h
      simpa [trimR] using this
    · intro h; simp [trimR, h]
  rw [trimR, List.reverse_cons, trimL_append_last]
  by_cases h0 : trimL u.reverse = []
  · rw [if_pos h0, if_pos (hrev.mpr h0)]
    by_cases hc : isWS c <;> simp [hc]
  · rw [if_neg h0, if_neg (fun hh => h0 (hrev.mp hh))]
    simp [trimR]

theorem trimR_head (s : Str) : trimR s = [] ∨ (trimR s).head? = s.head? := by
  cases s with
  | nil => left; exact trimR_nil
  | cons c u =>
    rw [trimR_cons]
    by_cases h0 : trimR u = []
    · rw [if_pos h0]
      by_cases hc : isWS c
      · left; simp [hc]
      · right; simp [hc]
    · rw [if_neg h0]; right; simp

theorem trimR_idem (s : Str) : trimR (trimR s) = trimR s := by
  rw [trimR, trimR, List.reverse_reverse, trimL_idem]

theorem trim_idem (s : Str) : trim (trim s) = trim s := by
  rw [trim, trim]
  have hA : trimL (trimR (trimL s)) = trimR (trimL s) := by
    rcases trimR_head (trimL s) with h | h
    · rw [h]; simp [trimL]
    · cases ht : trimR (trimL s) with
      | nil => simp [trimL]
      | cons c rest =>
        have hc : isWS c = false := by
          rw [ht] at h
          simp only [List.head?_cons] at h
          exact trimL_head_not_ws s c h.symm
        exact trimL_cons_not_ws rest hc
  rw [hA, trimR_idem]

theorem trim_rev_head_not_ws (s : Str) (c : Char) :
    (trim s).reverse.head? = some c → isWS c = false := by
  intro h
  rw [trim, trimR, List.reverse_reverse] at h
  exact trimL_head_not_ws _ c h

theorem mem_trim {c : Char} {s : Str} (h : c ∈ trim s) : c ∈ s := by
  rw [trim, trimR, List.mem_reverse] at h
  have h2 : c ∈ (trimL s).reverse := List.dropWhile_subset _ h
  have h3 : c ∈ trimL s := List.mem_reverse.mp h2
  exact List.dropWhile_subset _ h3

theorem trim_double_space (s : Str) : trim (' ' :: ' ' :: s) = trim s := by
  rw [trim, trim, trimL, List.dropWhile_cons, if_pos (by decide),
    List.dropWhile_cons, if_pos (by decide)]
  rfl

theorem endsArrow_true_iff (s : Str) :
    endsArrow s = true ↔ ∃ rest, s.reverse = '>' :: '-' :: rest := by
  unfold endsArrow
  split
  · next rest heq => simp [heq]
  · next hne =>
    constructor
    · intro hf; exact Bool.noConfusion hf
    · rintro ⟨rest, hrest⟩
      exact absurd hrest (by intro hh; exact hne rest hh)

theorem endsArrow_append_arrow (s : Str) : endsArrow (s ++ ['-', '>']) = true := by
  rw [endsArrow_true_iff]
  exact ⟨s.reverse, by simp⟩

theorem revStripArrows_eq_self (s : Str) (h : ∀ rest, s ≠ '>' :: '-' :: rest) :
    revStripArrows s = s := by
  unfold revStripArrows
  split
  · exact absurd rfl (h _)
  · rfl

theorem trimEndArrows_eq_self {s : Str} (h : endsArrow s = false) :
    trimEndArrows s = s := by
  rw [trimEndArrows, revStripArrows_eq_self, List.reverse_reverse]
  intro rest hrest
  have h2 : endsArrow s = true := (endsArrow_true_iff s).mpr ⟨rest, hrest⟩
  rw [h2] at h
  exact Bool.noConfusion h

theorem trimEndArrows_append_arrow (s : Str) :
    trimEndArrows (s ++ ['-', '>']) = trimEndArrows s := by
  rw [trimEndArrows, trimEndArrows]
  have : (s ++ ['-', '>']).reverse = '>' :: '-' :: s.reverse := by simp
  rw [this]
  rfl

theorem trimEndArrows_header {s : Str} (h : endsArrow s = false) :
    trimEndArrows (s ++ ['-', '>']) = s := by
  rw [trimEndArrows_append_arrow, trimEndArrows_eq_self h]

theorem splitOnce_append {a : Str} (b : Str) {c : Char} (h : c ∉ a) :
    splitOnce (a ++ c :: b) c = some (a, b) := by
  induction a with
  | nil => simp [splitOnce]
  | cons x a ih =>
    have hx : x ≠ c := by rintro rfl; exact h (by simp)
    rw [List.cons_append, splitOnce, if_neg hx, ih (fun hc => h (by simp [hc]))]
    rfl

theorem splitNL_ne_nil (s : Str) : splitNL s ≠ [] := by
  cases s with
  | nil => simp [splitNL]
  | cons c rest =>
    rw [splitNL]
    by_cases h : c = '\n'
    · simp [h]
    · rw [if_neg h]
      split <;> simp

theorem splitNL_append_nl {l : Str} (rest : Str) (h : '\n' ∉ l) :
    splitNL (l ++ '\n' :: rest) = l :: splitNL rest := by
  induction l with
  | nil => simp [splitNL]
  | cons x l ih =>
    have hx : ¬ x = '\n' := by rintro rfl; exact h (by simp)
    rw [List.cons_append, splitNL, if_neg hx, ih (fun hc => h (by simp [hc]))]

theorem linesOf_cons (l : Str) {ps : List Str} (h : ps ≠ []) :
    linesOf (l :: ps) = stripCR l :: linesOf ps := by
  cases ps with
  | nil => exact absurd rfl h
  | cons q rest => rfl

theorem stripCR_eq_self {s : Str} (h : s.reverse.head? ≠ some '\r') : stripCR s = s := by
  unfold stripCR
  split
  · next rest heq => exact absurd (by rw [heq]; rfl) h
  · rfl

theorem rustLines_cons {l : Str} (rest : Str) (h1 : '\n' ∉ l)
    (h2 : l.reverse.head? ≠ some '\r') :
    rustLines (l ++ '\n' :: rest) = l :: rustLines rest := by
  rw [rustLines, splitNL_append_nl rest h1, linesOf_cons l (splitNL_ne_nil rest),
    stripCR_eq_self h2]
  rfl

/-! ### The lexicographic order is total and transitive -/

theorem strLe_total : ∀ a b : Str, strLe a b = true ∨ strLe b a = true := by
  intro a
  induction a with
  | nil => intro b; left; rfl
  | cons x xs ih =>
    intro b
    cases b with
    | nil => right; rfl
    | cons y ys =>
      rcases Nat.lt_trichotomy x.toNat y.toNat with h | h | h
      · left; simp [strLe, h]
      · have hxy : ¬ x.toNat < y.toNat := by omega
        have hyx : ¬ y.toNat < x.toNat := by omega
        rcases ih ys with h2 | h2
        · left; simp [strLe, hxy, hyx, h2]
        · right; simp [strLe, hxy, hyx, h2]
      · right; simp [strLe, h]

theorem strLe_trans : ∀ a b c : Str, strLe a b = true → strLe b c = true → strLe a c = true := by
  intro a
  induction a with
  | nil => intro b c _ _; rfl
  | cons x xs ih =>
    intro b c h1 h2
    cases b with
    | nil => simp [strLe] at h1
    | cons y ys =>
      cases c with
      | nil => simp [strLe] at h2
      | cons z zs =>
        simp only [strLe] at h1 h2 ⊢
        by_cases hxy : x.toNat < y.toNat
        · by_cases hyz : y.toNat < z.toNat
          · have : x.toNat < z.toNat := by omega
            simp [this]
          · by_cases hzy : z.toNat < y.toNat
            · simp [hyz, hzy] at h2
            · have : y.toNat = z.toNat := by omega
              have hxz : x.toNat < z.toNat := by omega
              simp [hxz]
        · by_cases hyx : y.toNat < x.toNat
          · simp [hxy, hyx] at h1
          · have hxeqy : x.toNat = y.toNat := by omega
            by_cases hyz : y.toNat < z.toNat
            · have hxz : x.toNat < z.toNat := by omega
              simp [hxz]
            · by_cases hzy : z.toNat < y.toNat
              · simp [hyz, hzy] at h2
              · have hxz : ¬ x.toNat < z.toNat := by omega
                have hzx : ¬ z.toNat < x.toNat := by omega
                rw [if_neg hxy, if_neg hyx] at h1
                rw [if_neg hyz, if_neg hzy] at h2
                rw [if_neg hxz, if_neg hzx]
                exact ih ys zs h1 h2

instance : IsTotal (Str × List LinkValue) entryLe :=
  ⟨fun a b => by unfold entryLe; exact strLe_total (trim a.1) (trim b.1)⟩

instance : IsTrans (Str × List LinkValue) entryLe :=
  ⟨fun a b c h1 h2 => strLe_trans _ _ _ h1 h2⟩

instance : IsTotal LinkValue lvLe :=
  ⟨fun a b => by unfold lvLe; exact strLe_total (trim a.1) (trim b.1)⟩

instance : IsTrans LinkValue lvLe :=
  ⟨fun a b c h1 h2 => strLe_trans _ _ _ h1 h2⟩

instance : IsTotal IndexEntry ixLe :=
  ⟨fun a b => by unfold ixLe; exact strLe_total (trim a.1) (trim b.1)⟩

instance : IsTrans IndexEntry ixLe :=
  ⟨fun a b c h1 h2 => strLe_trans _ _ _ h1 h2⟩

/-! ### The serializer, recursively with an explicit running offset -/

theorem foldl_serialize (st : DataState) : ∀ (res : Str) (offs : List IndexEntry),
    st.foldl (fun acc e => (acc.1 ++ entryChars e, acc.2 ++ [(trim e.1, acc.1.length)]))
        (res, offs)
      = (res ++ (serializeFrom res.length st).1, offs ++ (serializeFrom res.length st).2) := by
  induction st with
  | nil => intro res offs; simp [serializeFrom]
  | cons e rest ih =>
    intro res offs
    rw [List.foldl_cons, ih]
    simp [serializeFrom, List.append_assoc]

theorem stateToFileString_eq (st : DataState) :
    Data.stateToFileString st
      = (sortState st, (serializeFrom 0 (sortState st)).1, (serializeFrom 0 (sortState st)).2) := by
  unfold Data.stateToFileString
  simp [foldl_serialize]

theorem serializeFrom_parents (off : Nat) (st : DataState) :
    (serializeFrom off st).2.map (fun e => e.1) = st.map (fun e => trim e.1) := by
  induction st generalizing off with
  | nil => rfl
  | cons e rest ih => simp [serializeFrom, ih]

theorem serializeFrom_headers (off : Nat) (st : DataState) :
    ∀ e ∈ (serializeFrom off st).2,
      off ≤ e.2 ∧
      ((serializeFrom off st).1.drop (e.2 - off)).take (e.1.length + 3)
        = e.1 ++ ['-', '>', '\n'] := by
  induction st generalizing off with
  | nil => intro e he; simp [serializeFrom] at he
  | cons q rest ih =>
    intro e he
    simp only [serializeFrom, List.mem_cons] at he ⊢
    rcases he with he | he
    · subst he
      refine ⟨Nat.le_refl _, ?_⟩
      simp only [Nat.sub_self, List.drop_zero]
      have hshape : entryChars q ++ (serializeFrom (off + (entryChars q).length) rest).1
          = (trim q.1 ++ ['-', '>', '\n'])
            ++ (q.2.flatMap (fun lv => linkLine lv ++ ['\n'])
                ++ (serializeFrom (off + (entryChars q).length) rest).1) := by
        simp [entryChars, headerLine, List.append_assoc]
      rw [hshape]
      have hlen : (trim q.1 ++ ['-', '>', '\n']).length = (trim q.1).length + 3 := by
        simp
      rw [← hlen, List.take_left]
    · have hmain := ih (off + (entryChars q).length) e he
      constructor
      · omega
      · have hoff : e.2 - off = (entryChars q).length + (e.2 - (off + (entryChars q).length)) := by
          omega
        rw [hoff]
        have hdrop : ((entryChars q ++ (serializeFrom (off + (entryChars q).length) rest).1).drop
            ((entryChars q).length + (e.2 - (off + (entryChars q).length))))
            = ((serializeFrom (off + (entryChars q).length) rest).1.drop
                (e.2 - (off + (entryChars q).length))) := by
          rw [List.drop_append]
        rw [hdrop]
        exact hmain.2

/-! ### Unfolding the well-formedness booleans -/

theorem goodParentB_iff (p : Str) :
    goodParentB p = true ↔
      trim p ≠ [] ∧ '\n' ∉ trim p ∧ endsArrow (trim p) = false
        ∧ RESERVED.contains (trim p) = false := by
  simp [goodParentB, Bool.and_eq_true, decide_eq_true_eq, Bool.not_eq_true', and_assoc]

theorem goodLinkB_iff (l : Str) :
    goodLinkB l = true ↔ '\n' ∉ trim l ∧ '|' ∉ trim l := by
  simp [goodLinkB, Bool.and_eq_true, decide_eq_true_eq, Bool.not_eq_true']

theorem goodValueB_iff (v : Str) :
    goodValueB v = true ↔ '\n' ∉ trim v ∧ endsArrow (trim v) = false := by
  simp [goodValueB, Bool.and_eq_true, decide_eq_true_eq, Bool.not_eq_true']

theorem entryOKB_iff (e : Str × List LinkValue) :
    entryOKB e = true ↔
      goodParentB e.1 = true ∧ e.2 ≠ []
        ∧ ∀ lv ∈ e.2, goodLinkB lv.1 = true ∧ goodValueB lv.2 = true := by
  simp [entryOKB, Bool.and_eq_true, decide_eq_true_eq, List.all_eq_true, and_assoc]

/-! ### Shape of the emitted lines -/

theorem nl_not_mem_headerLine {p : Str} (h : '\n' ∉ trim p) : '\n' ∉ headerLine p := by
  intro hmem
  rw [headerLine, List.mem_append] at hmem
  rcases hmem with hm | hm
  · exact h hm
  · simp at hm

theorem headerLine_rev_head (p : Str) : (headerLine p).reverse.head? = some '>' := by
  simp [headerLine]

theorem linkLine_rev (lv : LinkValue) :
    (linkLine lv).reverse
      = (trim lv.2).reverse ++ '|' :: ((trim lv.1).reverse ++ [' ', ' ']) := by
  simp [linkLine]

theorem nl_not_mem_linkLine {lv : LinkValue} (hl : '\n' ∉ trim lv.1)
    (hv : '\n' ∉ trim lv.2) : '\n' ∉ linkLine lv := by
  intro hmem
  rw [linkLine] at hmem
  simp only [List.mem_cons, List.mem_append] at hmem
  rcases hmem with hm | hm | hm | hm
  · exact absurd hm (by decide)
  · exact absurd hm (by decide)
  · exact hl hm
  · rcases hm with hm2 | hm2
    · exact absurd hm2 (by decide)
    · exact hv hm2

theorem linkLine_rev_head_ne_cr (lv : LinkValue) :
    (linkLine lv).reverse.head? ≠ some '\r' := by
  rw [linkLine_rev]
  cases htv : (trim lv.2).reverse with
  | nil => simp
  | cons c r =>
    intro hc
    simp only [List.cons_append, List.head?_cons, Option.some.injEq] at hc
    subst hc
    have := trim_rev_head_not_ws lv.2 '\r' (by rw [htv]; rfl)
    exact absurd this (by decide)

theorem linkLine_endsArrow_false {lv : LinkValue} (hv : endsArrow (trim lv.2) = false) :
    endsArrow (linkLine lv) = false := by
  by_contra hcon
  have htrue : endsArrow (linkLine lv) = true := by
    cases he : endsArrow (linkLine lv)
    · exact absurd he hcon
    · rfl
  obtain ⟨rest, hrest⟩ := (endsArrow_true_iff _).mp htrue
  rw [linkLine_rev] at hrest
  cases htv : (trim lv.2).reverse with
  | nil =>
    rw [htv] at hrest
    simp only [List.nil_append, List.cons.injEq] at hrest
    exact absurd hrest.1 (by decide)
  | cons c1 r1 =>
    cases r1 with
    | nil =>
      rw [htv] at hrest
      simp only [List.cons_append, List.nil_append, List.cons.injEq] at hrest
      exact absurd hrest.2.1 (by decide)
    | cons c2 r2 =>
      rw [htv] at hrest
      simp only [List.cons_append, List.cons.injEq] at hrest
      have : endsArrow (trim lv.2) = true := by
        rw [endsArrow_true_iff]
        exact ⟨r2, by rw [htv, hrest.1, hrest.2.1]⟩
      rw [this] at hv
      exact Bool.noConfusion hv

/-! ### The lines of a serialized state -/

theorem rustLines_links (links : List LinkValue)
    (h : ∀ lv ∈ links, goodLinkB lv.1 = true ∧ goodValueB lv.2 = true) (tail : Str) :
    rustLines (links.flatMap (fun lv => linkLine lv ++ ['\n']) ++ tail)
      = links.map linkLine ++ rustLines tail := by
  induction links with
  | nil => simp
  | cons lv rest ih =>
    have hgood := h lv (by simp)
    have hl := (goodLinkB_iff lv.1).mp hgood.1
    have hvv := (goodValueB_iff lv.2).mp hgood.2
    have hshape : (lv :: rest).flatMap (fun lv => linkLine lv ++ ['\n']) ++ tail
        = linkLine lv ++ '\n' :: (rest.flatMap (fun lv => linkLine lv ++ ['\n']) ++ tail) := by
      simp
    rw [hshape, rustLines_cons _ (nl_not_mem_linkLine hl.1 hvv.1) (linkLine_rev_head_ne_cr lv),
      ih (fun x hx => h x (by simp [hx]))]
    simp

theorem rustLines_serialize (st : DataState) (h : ∀ e ∈ st, entryOKB e = true) (off : Nat) :
    rustLines (serializeFrom off st).1 = st.flatMap entryLines := by
  induction st generalizing off with
  | nil => rfl
  | cons q rest ih =>
    have hq := (entryOKB_iff q).mp (h q (by simp))
    have hp := (goodParentB_iff q.1).mp hq.1
    have hshape : (serializeFrom off (q :: rest)).1
        = headerLine q.1
          ++ '\n' :: (q.2.flatMap (fun lv => linkLine lv ++ ['\n'])
            ++ (serializeFrom (off + (entryChars q).length) rest).1) := by
      simp [serializeFrom, entryChars]
    rw [hshape,
      rustLines_cons _ (nl_not_mem_headerLine hp.2.1)
        (by rw [headerLine_rev_head]; decide),
      rustLines_links q.2 hq.2.2 _, ih (fun e he => h e (by simp [he]))]
    simp [entryLines]

theorem fileParents_entryLines (st : DataState) (h : ∀ e ∈ st, entryOKB e = true) :
    (st.flatMap entryLines).filterMap
        (fun l => if endsArrow l then some (trimEndArrows l) else none)
      = st.map (fun e => trim e.1) := by
  induction st with
  | nil => rfl
  | cons q rest ih =>
    have hq := (entryOKB_iff q).mp (h q (by simp))
    have hp := (goodParentB_iff q.1).mp hq.1
    have hflat : (q :: rest).flatMap entryLines = entryLines q ++ rest.flatMap entryLines := by
      simp
    rw [hflat, List.filterMap_append, ih (fun e he => h e (by simp [he]))]
    have hhead : (entryLines q).filterMap
        (fun l => if endsArrow l then some (trimEndArrows l) else none) = [trim q.1] := by
      rw [entryLines, List.filterMap_cons]
      rw [if_pos (by rw [headerLine]; exact endsArrow_append_arrow _)]
      have hlinks : (q.2.map linkLine).filterMap
          (fun l => if endsArrow l then some (trimEndArrows l) else none) = [] := by
        rw [List.filterMap_eq_nil]
        intro a ha
        obtain ⟨lv, hlv, rfl⟩ := List.mem_map.mp ha
        have hvv := (goodValueB_iff lv.2).mp (hq.2.2 lv hlv).2
        rw [if_neg (by rw [linkLine_endsArrow_false hvv.2]; exact Bool.noConfusion)]
      rw [hlinks, headerLine, trimEndArrows_header hp.2.2.1]
    rw [hhead]
    rfl

theorem fileParents_serialize (st : DataState) (h : ∀ e ∈ st, entryOKB e = true) (off : Nat) :
    fileParents (serializeFrom off st).1 = st.map (fun e => trim e.1) := by
  rw [fileParents, rustLines_serialize st h off, fileParents_entryLines st h]

/-! ### Sortedness facts -/

theorem sortState_sorted (st : DataState) : List.Sorted entryLe (sortState st) := by
  rw [sortState]
  exact List.Pairwise.map _ (fun a b h => h) (List.sorted_insertionSort entryLe st)

theorem entryOK_sortState {st : DataState} (h : ∀ e ∈ st, entryOKB e = true) :
    ∀ e ∈ sortState st, entryOKB e = true := by
  intro e he
  rw [sortState] at he
  obtain ⟨q, hq, rfl⟩ := List.mem_map.mp he
  have hq2 : q ∈ st := (List.perm_insertionSort entryLe st).mem_iff.mp hq
  have hOK := (entryOKB_iff q).mp (h q hq2)
  rw [entryOKB_iff]
  refine ⟨hOK.1, ?_, ?_⟩
  · intro hnil
    have hnil2 : List.insertionSort lvLe q.2 = [] := hnil
    have hperm := List.perm_insertionSort lvLe q.2
    rw [hnil2] at hperm
    exact hOK.2.1 hperm.symm.eq_nil
  · intro lv hlv
    exact hOK.2.2 lv ((List.perm_insertionSort lvLe q.2).mem_iff.mp hlv)

theorem serializeFrom_offsets_sorted {st : DataState} (h : List.Sorted entryLe st) :
    ∀ off, List.Sorted ixLe (serializeFrom off st).2 := by
  induction st with
  | nil => intro off; simp [serializeFrom]
  | cons q rest ih =>
    intro off
    rw [List.sorted_cons] at h
    simp only [serializeFrom]
    rw [List.sorted_cons]
    constructor
    · intro b hb
      have hb1 : b.1 ∈ (serializeFrom (off + (entryChars q).length) rest).2.map
          (fun e => e.1) := List.mem_map_of_mem _ hb
      rw [serializeFrom_parents] at hb1
      obtain ⟨q2, hq2, hq2eq⟩ := List.mem_map.mp hb1
      have hle := h.1 q2 hq2
      unfold entryLe at hle
      show strLe (trim (trim q.1)) (trim b.1) = true
      rw [trim_idem, ← hq2eq, trim_idem]
      exact hle
    · exact ih h.2 _

/-! ### Parsing a serialized state back -/

theorem parseLines_links (links : List LinkValue)
    (h : ∀ lv ∈ links, goodLinkB lv.1 = true ∧ goodValueB lv.2 = true) :
    ∀ (rest : List Str) (parent : Str) (cur : List LinkValue) (acc : DataState),
    Data.parseLines (links.map linkLine ++ rest) parent cur acc
      = Data.parseLines rest parent (cur ++ canonLinks links) acc := by
  induction links with
  | nil => intro rest parent cur acc; simp [canonLinks]
  | cons lv rest0 ih =>
    intro rest parent cur acc
    have hgood := h lv (by simp)
    have hl := (goodLinkB_iff lv.1).mp hgood.1
    have hvv := (goodValueB_iff lv.2).mp hgood.2
    have hends : endsArrow (linkLine lv) = false := linkLine_endsArrow_false hvv.2
    have hcont : (linkLine lv).contains '|' = true := by
      simp [linkLine, List.contains]
    have hnomem : '|' ∉ ' ' :: ' ' :: trim lv.1 := by
      intro hm
      simp only [List.mem_cons] at hm
      rcases hm with hm | hm | hm
      · exact absurd hm (by decide)
      · exact absurd hm (by decide)
      · exact hl.2 hm
    have hsplit : splitOnce (linkLine lv) '|' = some (' ' :: ' ' :: trim lv.1, trim lv.2) := by
      have hsh : linkLine lv = (' ' :: ' ' :: trim lv.1) ++ '|' :: trim lv.2 := by
        simp [linkLine]
      rw [hsh]
      exact splitOnce_append _ hnomem
    have hval : validateLink (' ' :: ' ' :: trim lv.1) = .ok () := by
      rw [validateLink, if_neg]
      intro hc
      rw [List.contains] at hc
      exact hnomem (List.elem_iff.mp hc)
    have hmap : (lv :: rest0).map linkLine ++ rest
        = linkLine lv :: (rest0.map linkLine ++ rest) := by simp
    rw [hmap]
    rw [Data.parseLines]
    rw [if_neg (by rw [hends]; exact Bool.noConfusion), if_pos hcont, hsplit]
    simp only [hval]
    rw [trim_double_space, trim_idem, trim_idem]
    rw [ih (fun x hx => h x (by simp [hx]))]
    have hassoc : (cur ++ [(trim lv.1, trim lv.2)]) ++ canonLinks rest0
        = cur ++ canonLinks (lv :: rest0) := by
      simp [canonLinks]
    rw [hassoc]

theorem parseLines_entries (st : DataState) (hOK : ∀ e ∈ st, entryOKB e = true) :
    ∀ (parent : Str) (cur : List LinkValue) (acc : DataState),
    (cur ≠ [] → parent ≠ []) →
    Data.parseLines (st.flatMap entryLines) parent cur acc
      = .ok ((updateState parent cur acc).1 ++ canonState st) := by
  induction st with
  | nil =>
    intro parent cur acc hpre
    have hnp : noParentError parent cur = .ok () := by
      rw [noParentError, if_neg]
      rintro ⟨h1, h2⟩
      exact (hpre h1) h2
    simp only [List.flatMap_nil, Data.parseLines, hnp, canonState, List.map_nil,
      List.append_nil]
  | cons q rest ih =>
    intro parent cur acc hpre
    have hq := (entryOKB_iff q).mp (hOK q (by simp))
    have hp := (goodParentB_iff q.1).mp hq.1
    have hnp : noParentError parent cur = .ok () := by
      rw [noParentError, if_neg]
      rintro ⟨h1, h2⟩
      exact (hpre h1) h2
    have hflat : (q :: rest).flatMap entryLines
        = headerLine q.1 :: (q.2.map linkLine ++ rest.flatMap entryLines) := by
      simp [entryLines]
    have hstrip : trimEndArrows (headerLine q.1) = trim q.1 := by
      rw [headerLine]
      exact trimEndArrows_header hp.2.2.1
    have hvp : validateParent (trimEndArrows (headerLine q.1)) = .ok () := by
      rw [hstrip, validateParent, if_neg]
      rw [hp.2.2.2]
      exact Bool.noConfusion
    have hcur2 : (updateState parent cur acc).2 = [] := by
      by_cases hc : parent ≠ [] ∧ cur ≠ []
      · rw [updateState, if_pos hc]
      · rw [updateState, if_neg hc]
        by_cases hcn : cur = []
        · exact hcn
        · exact absurd ⟨hpre hcn, hcn⟩ hc
    rw [hflat]
    rw [Data.parseLines]
    rw [if_pos (by rw [headerLine]; exact endsArrow_append_arrow _), hnp]
    simp only [hvp]
    rw [hcur2, hstrip]
    rw [parseLines_links q.2 hq.2.2]
    rw [ih (fun e he => hOK e (by simp [he])) (trim q.1) ([] ++ canonLinks q.2)
      (updateState parent cur acc).1 (fun _ => hp.1)]
    have hupd : (updateState (trim q.1) ([] ++ canonLinks q.2)
        (updateState parent cur acc).1).1
        = (updateState parent cur acc).1 ++ [(trim q.1, canonLinks q.2)] := by
      rw [List.nil_append, updateState, if_pos]
      constructor
      · exact hp.1
      · intro hnil
        rw [canonLinks] at hnil
        exact hq.2.1 (List.map_eq_nil_iff.mp hnil)
    rw [hupd]
    have hcanon : canonState (q :: rest) = (trim q.1, canonLinks q.2) :: canonState rest := by
      simp [canonState]
    rw [hcanon, List.append_assoc]
    rfl

theorem parseFile_serialize (st : DataState) (hOK : ∀ e ∈ st, entryOKB e = true) :
    Data.parseFile (Data.stateToFileString st).2.1
      = .ok (canonState (sortState st)) := by
  rw [stateToFileString_eq]
  show Data.parseFile (serializeFrom 0 (sortState st)).1 = _
  rw [Data.parseFile, rustLines_serialize (sortState st) (entryOK_sortState hOK) 0]
  rw [parseLines_entries (sortState st) (entryOK_sortState hOK) [] [] []
    (fun hc => absurd rfl hc)]
  rfl

/-! ### Re-serializing a parsed-back state -/

theorem map_id_of_mem {α : Type} {f : α → α} :
    ∀ {l : List α}, (∀ a ∈ l, f a = a) → l.map f = l := by
  intro l
  induction l with
  | nil => intro _; rfl
  | cons x xs ih =>
    intro h
    rw [List.map_cons, h x (by simp), ih (fun a ha => h a (by simp [ha]))]

theorem canonState_sorted {S : DataState} (h : List.Sorted entryLe S) :
    List.Sorted entryLe (canonState S) := by
  rw [canonState]
  refine List.Pairwise.map _ ?_ h
  intro a b hab
  unfold entryLe at hab ⊢
  rw [show ((trim a.1, canonLinks a.2) : Str × List LinkValue).1 = trim a.1 from rfl,
    show ((trim b.1, canonLinks b.2) : Str × List LinkValue).1 = trim b.1 from rfl,
    trim_idem, trim_idem]
  exact hab

theorem canonLinks_sorted {links : List LinkValue} (h : List.Sorted lvLe links) :
    List.Sorted lvLe (canonLinks links) := by
  rw [canonLinks]
  refine List.Pairwise.map _ ?_ h
  intro a b hab
  unfold lvLe at hab ⊢
  rw [show ((trim a.1, trim a.2) : LinkValue).1 = trim a.1 from rfl,
    show ((trim b.1, trim b.2) : LinkValue).1 = trim b.1 from rfl,
    trim_idem, trim_idem]
  exact hab

theorem sortState_canon (st : DataState) :
    sortState (canonState (sortState st)) = canonState (sortState st) := by
  have hs : List.Sorted entryLe (canonState (sortState st)) :=
    canonState_sorted (sortState_sorted st)
  rw [sortState, List.Sorted.insertionSort_eq hs]
  apply map_id_of_mem
  intro e he
  have hlinks : List.Sorted lvLe e.2 := by
    rw [canonState, sortState, List.map_map] at he
    obtain ⟨q, _, rfl⟩ := List.mem_map.mp he
    exact canonLinks_sorted (List.sorted_insertionSort lvLe q.2)
  rw [List.Sorted.insertionSort_eq hlinks]

theorem linkLine_canon (lv : LinkValue) : linkLine (trim lv.1, trim lv.2) = linkLine lv := by
  simp [linkLine, trim_idem]

theorem entryChars_canon (e : Str × List LinkValue) :
    entryChars (trim e.1, canonLinks e.2) = entryChars e := by
  rw [entryChars, entryChars]
  have hh : headerLine (trim e.1) = headerLine e.1 := by
    rw [headerLine, headerLine, trim_idem]
  rw [hh]
  have hl : (canonLinks e.2).flatMap (fun lv => linkLine lv ++ ['\n'])
      = e.2.flatMap (fun lv => linkLine lv ++ ['\n']) := by
    rw [canonLinks]
    induction e.2 with
    | nil => rfl
    | cons lv rest ih =>
      simp only [List.map_cons, List.flatMap_cons, ih]
      rw [linkLine_canon]
  rw [hl]

theorem serializeFrom_canon (S : DataState) :
    ∀ off, serializeFrom off (canonState S) = serializeFrom off S := by
  induction S with
  | nil => intro off; rfl
  | cons q rest ih =>
    intro off
    have hc : canonState (q :: rest) = (trim q.1, canonLinks q.2) :: canonState rest := by
      simp [canonState]
    rw [hc]
    simp only [serializeFrom, entryChars_canon, ih]
    rw [trim_idem]

/-! ### Well-formedness is preserved by every mutation -/

theorem goodLink_trim {l : Str} (h : goodLinkB l = true) : goodLinkB (trim l) = true := by
  unfold goodLinkB at h ⊢
  rw [trim_idem]
  exact h

theorem goodValue_trim {v : Str} (h : goodValueB v = true) : goodValueB (trim v) = true := by
  unfold goodValueB at h ⊢
  rw [trim_idem]
  exact h

theorem newEntry_OK {p l v : Str} (hp : goodParentB p = true) (hl : goodLinkB l = true)
    (hv : goodValueB v = true) : entryOKB (p, [(trim l, trim v)]) = true := by
  rw [entryOKB_iff]
  refine ⟨hp, by simp, ?_⟩
  intro lv hlv
  simp only [List.mem_singleton] at hlv
  subst hlv
  exact ⟨goodLink_trim hl, goodValue_trim hv⟩

theorem addLinkAux_OK {p l v : Str} (hp : goodParentB p = true) (hl : goodLinkB l = true)
    (hv : goodValueB v = true) :
    ∀ {st : DataState}, (∀ e ∈ st, entryOKB e = true) →
      ∀ e ∈ (Data.addLinkAux st p l v).2, entryOKB e = true := by
  intro st
  induction st with
  | nil =>
    intro _ e he
    simp only [Data.addLinkAux, List.mem_singleton] at he
    subst he
    exact newEntry_OK hp hl hv
  | cons q rest ih =>
    intro hI e he
    obtain ⟨qp, qlinks⟩ := q
    simp only [Data.addLinkAux] at he
    by_cases hq : qp = p
    · rw [if_pos hq] at he
      by_cases hdup : qlinks.any (fun lv => trim lv.1 == l) = true
      · rw [if_pos hdup] at he
        exact hI e he
      · rw [if_neg hdup] at he
        rcases List.mem_cons.mp he with rfl | hmem
        · have hq2 := (entryOKB_iff (qp, qlinks)).mp (hI (qp, qlinks) (by simp))
          rw [entryOKB_iff]
          refine ⟨hq2.1, by simp, ?_⟩
          intro lv hlv
          rcases List.mem_append.mp hlv with h1 | h1
          · exact hq2.2.2 lv h1
          · simp only [List.mem_singleton] at h1
            subst h1
            exact ⟨goodLink_trim hl, goodValue_trim hv⟩
        · exact hI e (by simp [hmem])
    · rw [if_neg hq] at he
      rcases List.mem_cons.mp he with rfl | hmem
      · exact hI _ (by simp)
      · exact ih (fun e2 he2 => hI e2 (by simp [he2])) e hmem

theorem addLinkAux_error_state {p l v : Str} :
    ∀ {st : DataState} {err}, (Data.addLinkAux st p l v).1 = .error err →
      (Data.addLinkAux st p l v).2 = st := by
  intro st
  induction st with
  | nil => intro err h; exact absurd h (by simp [Data.addLinkAux])
  | cons q rest ih =>
    intro err h
    obtain ⟨qp, qlinks⟩ := q
    simp only [Data.addLinkAux] at h ⊢
    by_cases hq : qp = p
    · rw [if_pos hq] at h ⊢
      by_cases hdup : qlinks.any (fun lv => trim lv.1 == l) = true
      · rw [if_pos hdup]
      · rw [if_neg hdup] at h
        exact absurd h (by simp)
    · rw [if_neg hq] at h ⊢
      rw [ih h]

theorem addLink_error_state {st : DataState} {p l v : Str} {err}
    (h : (Data.addLink st p l v).1 = .error err) : (Data.addLink st p l v).2 = st := by
  rw [Data.addLink.eq_def] at h ⊢
  split at h
  · rfl
  · split at h
    · rfl
    · exact addLinkAux_error_state h

theorem addLink_state_OK {st : DataState} {p l v : Str}
    (hI : ∀ e ∈ st, entryOKB e = true) (hp : goodParentB p = true)
    (hl : goodLinkB l = true) (hv : goodValueB v = true) :
    ∀ e ∈ (Data.addLink st p l v).2, entryOKB e = true := by
  rw [Data.addLink.eq_def]
  split
  · exact hI
  · split
    · exact hI
    · exact addLinkAux_OK hp hl hv hI

theorem removeLinkAux_subset {l : Str} :
    ∀ {links r : List LinkValue}, removeLinkAux links l = some r → ∀ lv ∈ r, lv ∈ links := by
  intro links
  induction links with
  | nil => intro r h; exact absurd h (by simp [removeLinkAux])
  | cons a rest ih =>
    intro r h lv hlv
    obtain ⟨an, av⟩ := a
    simp only [removeLinkAux] at h
    by_cases ha : trim an = l
    · rw [if_pos ha] at h
      simp only [Option.some.injEq] at h
      subst h
      exact List.mem_cons_of_mem _ hlv
    · rw [if_neg ha] at h
      cases hr : removeLinkAux rest l with
      | none => rw [hr] at h; exact absurd h (by simp)
      | some r2 =>
        rw [hr] at h
        simp only [Option.map_some', Option.some.injEq] at h
        subst h
        rcases List.mem_cons.mp hlv with rfl | hmem
        · exact List.mem_cons_self _ _
        · exact List.mem_cons_of_mem _ (ih hr lv hmem)

theorem removeAux_OK {pn : Str} {ml : Option Str} :
    ∀ {st : DataState}, (∀ e ∈ st, entryOKB e = true) →
      ∀ e ∈ (Data.removeAux st pn ml).2, entryOKB e = true := by
  intro st
  induction st with
  | nil => intro _ e he; exact absurd he (by simp [Data.removeAux])
  | cons q rest ih =>
    intro hI e he
    obtain ⟨qp, qlinks⟩ := q
    by_cases hq : qp = pn
    · cases ml with
      | none =>
        simp only [Data.removeAux] at he
        rw [if_pos hq] at he
        exact hI e (List.mem_cons_of_mem _ he)
      | some l =>
        simp only [Data.removeAux] at he
        rw [if_pos hq] at he
        split at he
        · exact hI e he
        · rename_i links2 hr
          have he2 : e ∈ (if links2 = [] then rest else (qp, links2) :: rest) := he
          by_cases h2 : links2 = []
          · rw [if_pos h2] at he2
            exact hI e (List.mem_cons_of_mem _ he2)
          · rw [if_neg h2] at he2
            rcases List.mem_cons.mp he2 with rfl | hmem
            · have hq2 := (entryOKB_iff (qp, qlinks)).mp (hI (qp, qlinks) (by simp))
              rw [entryOKB_iff]
              exact ⟨hq2.1, h2,
                fun lv hlv => hq2.2.2 lv (removeLinkAux_subset hr lv hlv)⟩
            · exact hI e (List.mem_cons_of_mem _ hmem)
    · simp only [Data.removeAux] at he
      rw [if_neg hq] at he
      rcases List.mem_cons.mp he with rfl | hmem
      · exact hI _ (by simp)
      · exact ih (fun e2 he2 => hI e2 (List.mem_cons_of_mem _ he2)) e hmem

theorem removeAux_error_state {pn : Str} {ml : Option Str} :
    ∀ {st : DataState} {err}, (Data.removeAux st pn ml).1 = .error err →
      (Data.removeAux st pn ml).2 = st := by
  intro st
  induction st with
  | nil => intro err _; rfl
  | cons q rest ih =>
    intro err h
    obtain ⟨qp, qlinks⟩ := q
    by_cases hq : qp = pn
    · cases ml with
      | none =>
        simp only [Data.removeAux] at h
        rw [if_pos hq] at h
        exact absurd h (by simp)
      | some l =>
        simp only [Data.removeAux] at h ⊢
        rw [if_pos hq] at h ⊢
        split at h
        · rfl
        · exact absurd h (by simp)
    · simp only [Data.removeAux] at h ⊢
      rw [if_neg hq] at h ⊢
      rw [ih h]

theorem remove_error_state {st : DataState} {pn : Str} {ml : Option Str} {err}
    (h : (Data.remove st pn ml).1 = .error err) : (Data.remove st pn ml).2 = st := by
  rw [Data.remove.eq_def] at h ⊢
  split at h
  · rfl
  · split at h
    · split at h
      · rfl
      · exact removeAux_error_state h
    · exact removeAux_error_state h

theorem remove_state_OK {st : DataState} {pn : Str} {ml : Option Str}
    (hI : ∀ e ∈ st, entryOKB e = true) :
    ∀ e ∈ (Data.remove st pn ml).2, entryOKB e = true := by
  rw [Data.remove.eq_def]
  split
  · exact hI
  · split
    · split
      · exact hI
      · exact removeAux_OK hI
    · exact removeAux_OK hI

theorem upsertLinksAux_OK {l v : Str} (hl : goodLinkB l = true) (hv : goodValueB v = true) :
    ∀ {links : List LinkValue},
      (∀ lv ∈ links, goodLinkB lv.1 = true ∧ goodValueB lv.2 = true) →
      ∀ lv ∈ upsertLinksAux links l v, goodLinkB lv.1 = true ∧ goodValueB lv.2 = true := by
  intro links
  induction links with
  | nil =>
    intro _ lv hlv
    simp only [upsertLinksAux, List.mem_singleton] at hlv
    subst hlv
    exact ⟨goodLink_trim hl, goodValue_trim hv⟩
  | cons a rest ih =>
    intro hlinks lv hlv
    obtain ⟨an, av⟩ := a
    simp only [upsertLinksAux] at hlv
    by_cases ha : trim an = l
    · rw [if_pos ha] at hlv
      rcases List.mem_cons.mp hlv with rfl | hmem
      · exact ⟨(hlinks (an, av) (by simp)).1, goodValue_trim hv⟩
      · exact hlinks lv (by simp [hmem])
    · rw [if_neg ha] at hlv
      rcases List.mem_cons.mp hlv with rfl | hmem
      · exact hlinks _ (by simp)
      · exact ih (fun x hx => hlinks x (by simp [hx])) lv hmem

theorem upsertLinksAux_ne_nil (links : List LinkValue) (l v : Str) :
    upsertLinksAux links l v ≠ [] := by
  cases links with
  | nil => simp [upsertLinksAux]
  | cons a rest =>
    obtain ⟨an, av⟩ := a
    simp only [upsertLinksAux]
    by_cases ha : trim an = l
    · rw [if_pos ha]; simp
    · rw [if_neg ha]; simp

theorem upsertAux_OK {pn l v : Str} (hp : goodParentB pn = true) (hl : goodLinkB l = true)
    (hv : goodValueB v = true) :
    ∀ {st : DataState}, (∀ e ∈ st, entryOKB e = true) →
      ∀ e ∈ Data.upsertAux st pn l v, entryOKB e = true := by
  intro st
  induction st with
  | nil =>
    intro _ e he
    simp only [Data.upsertAux, List.mem_singleton] at he
    subst he
    exact newEntry_OK hp hl hv
  | cons q rest ih =>
    intro hI e he
    obtain ⟨qp, qlinks⟩ := q
    simp only [Data.upsertAux] at he
    by_cases hq : qp = pn
    · rw [if_pos hq] at he
      rcases List.mem_cons.mp he with rfl | hmem
      · have hq2 := (entryOKB_iff (qp, qlinks)).mp (hI (qp, qlinks) (by simp))
        rw [entryOKB_iff]
        exact ⟨hq2.1, upsertLinksAux_ne_nil qlinks l v, upsertLinksAux_OK hl hv hq2.2.2⟩
      · exact hI e (by simp [hmem])
    · rw [if_neg hq] at he
      rcases List.mem_cons.mp he with rfl | hmem
      · exact hI _ (by simp)
      · exact ih (fun e2 he2 => hI e2 (by simp [he2])) e hmem

theorem upsertLink_state_OK {st : DataState} {pn l v : Str}
    (hI : ∀ e ∈ st, entryOKB e = true) (hp : goodParentB pn = true)
    (hl : goodLinkB l = true) (hv : goodValueB v = true) :
    ∀ e ∈ (Data.upsertLink st pn l v).2, entryOKB e = true := by
  rw [Data.upsertLink.eq_def]
  split
  · exact hI
  · split
    · exact hI
    · exact upsertAux_OK hp hl hv hI

theorem upsertLink_error_state {st : DataState} {pn l v : Str} {err}
    (h : (Data.upsertLink st pn l v).1 = .error err) : (Data.upsertLink st pn l v).2 = st := by
  rw [Data.upsertLink.eq_def] at h ⊢
  split at h
  · rfl
  · split at h
    · rfl
    · exact absurd h (by simp)

theorem foldl_upsert_links_OK {pn : Str} (hp : goodParentB pn = true) :
    ∀ (links : List LinkValue) (acc : DataState),
      (∀ lv ∈ links, goodLinkB lv.1 = true ∧ goodValueB lv.2 = true) →
      (∀ e ∈ acc, entryOKB e = true) →
      ∀ e ∈ links.foldl (fun acc2 lv => (Data.upsertLink acc2 pn lv.1 lv.2).2) acc,
        entryOKB e = true := by
  intro links
  induction links with
  | nil => intro acc _ hI; exact hI
  | cons lv rest ih =>
    intro acc hlinks hI
    rw [List.foldl_cons]
    exact ih _ (fun x hx => hlinks x (by simp [hx]))
      (upsertLink_state_OK hI hp (hlinks lv (by simp)).1 (hlinks lv (by simp)).2)

theorem foldl_upsert_entries_OK :
    ∀ (parsed acc : DataState),
      (∀ q ∈ parsed, goodParentB q.1 = true ∧
        ∀ lv ∈ q.2, goodLinkB lv.1 = true ∧ goodValueB lv.2 = true) →
      (∀ e ∈ acc, entryOKB e = true) →
      ∀ e ∈ parsed.foldl (fun acc e =>
          e.2.foldl (fun acc2 lv => (Data.upsertLink acc2 e.1 lv.1 lv.2).2) acc) acc,
        entryOKB e = true := by
  intro parsed
  induction parsed with
  | nil => intro acc _ hI; exact hI
  | cons q rest ih =>
    intro acc hg hI
    rw [List.foldl_cons]
    exact ih _ (fun x hx => hg x (by simp [hx]))
      (foldl_upsert_links_OK (hg q (by simp)).1 q.2 acc (hg q (by simp)).2 hI)

theorem importTap_error_state {st : DataState} {content : Str} {err}
    (h : (Data.importTap st content).1 = .error err) :
    (Data.importTap st content).2 = st := by
  rw [Data.importTap.eq_def] at h ⊢
  split at h
  · rfl
  · exact absurd h (by simp)

theorem importTap_state_OK {st : DataState} {content : Str}
    (hI : ∀ e ∈ st, entryOKB e = true)
    (hg : goodMutationB (.importTap content) = true) :
    ∀ e ∈ (Data.importTap st content).2, entryOKB e = true := by
  rw [Data.importTap.eq_def]
  split
  · exact hI
  · rename_i parsed hparse
    have hg2 : parsed.all (fun e => goodParentB e.1 &&
        e.2.all (fun lv => goodLinkB lv.1 && goodValueB lv.2)) = true := by
      simp only [goodMutationB] at hg
      rw [hparse] at hg
      exact hg
    have hg3 : ∀ q ∈ parsed, goodParentB q.1 = true ∧
        ∀ lv ∈ q.2, goodLinkB lv.1 = true ∧ goodValueB lv.2 = true := by
      intro q hq
      have h1 := List.all_eq_true.mp hg2 q hq
      rw [Bool.and_eq_true] at h1
      refine ⟨h1.1, ?_⟩
      intro lv hlv
      have h2 := List.all_eq_true.mp h1.2 lv hlv
      rw [Bool.and_eq_true] at h2
      exact h2
    exact foldl_upsert_entries_OK parsed st hg3 hI

/-! ### The store invariant -/

theorem afterSave_data (d : DataState) (old : List IndexEntry) :
    (DataStore.afterSave d old).data = sortState d := by
  simp [DataStore.afterSave, stateToFileString_eq]

theorem afterSave_dataFile (d : DataState) (old : List IndexEntry) :
    (DataStore.afterSave d old).dataFile = (serializeFrom 0 (sortState d)).1 := by
  simp [DataStore.afterSave, stateToFileString_eq]

theorem afterSave_index {d : DataState} (hd : ∀ e ∈ d, entryOKB e = true)
    (old : List IndexEntry) :
    (DataStore.afterSave d old).index = (serializeFrom 0 (sortState d)).2 := by
  have h1 : (DataStore.afterSave d old).index
      = List.insertionSort ixLe (serializeFrom 0 (sortState d)).2 := by
    simp [DataStore.afterSave, stateToFileString_eq, Index.stateToFileString, Index.update]
  rw [h1]
  exact List.Sorted.insertionSort_eq (serializeFrom_offsets_sorted (sortState_sorted d) 0)

theorem applyMutation_preserves {s : DataStore}
    (hs : ∃ d, (∀ e ∈ d, entryOKB e = true) ∧ s = DataStore.afterSave d [])
    {m : Mutation} (hg : goodMutationB m = true) :
    ∃ d, (∀ e ∈ d, entryOKB e = true) ∧ (s.applyMutation m).2 = DataStore.afterSave d [] := by
  obtain ⟨d, hd, rfl⟩ := hs
  have hdataOK : ∀ e ∈ (DataStore.afterSave d []).data, entryOKB e = true := by
    rw [afterSave_data]
    exact entryOK_sortState hd
  cases m with
  | addLink p l v =>
    simp only [goodMutationB, Bool.and_eq_true] at hg
    show ∃ d2, _ ∧ (DataStore.addLink _ p l v).2 = _
    rw [DataStore.addLink.eq_def]
    split
    · rename_i e2 d2 heq
      have h1 : (Data.addLink (DataStore.afterSave d []).data p l v).1 = .error e2 := by
        rw [heq]
      have h2 := addLink_error_state h1
      rw [heq] at h2
      have h3 : d2 = (DataStore.afterSave d []).data := h2
      refine ⟨d, hd, ?_⟩
      show ({ DataStore.afterSave d [] with data := d2 } : DataStore) = _
      rw [h3]
    · rename_i u d2 heq
      have h1 := addLink_state_OK hdataOK hg.1.1 hg.1.2 hg.2
      rw [heq] at h1
      exact ⟨d2, h1, rfl⟩
  | upsertLink p l v =>
    simp only [goodMutationB, Bool.and_eq_true] at hg
    show ∃ d2, _ ∧ (DataStore.upsertLink _ p l v).2 = _
    rw [DataStore.upsertLink.eq_def]
    split
    · rename_i e2 d2 heq
      have h1 : (Data.upsertLink (DataStore.afterSave d []).data p l v).1 = .error e2 := by
        rw [heq]
      have h2 := upsertLink_error_state h1
      rw [heq] at h2
      have h3 : d2 = (DataStore.afterSave d []).data := h2
      refine ⟨d, hd, ?_⟩
      show ({ DataStore.afterSave d [] with data := d2 } : DataStore) = _
      rw [h3]
    · rename_i u d2 heq
      have h1 := upsertLink_state_OK hdataOK hg.1.1 hg.1.2 hg.2
      rw [heq] at h1
      exact ⟨d2, h1, rfl⟩
  | delete p ml =>
    show ∃ d2, _ ∧ (DataStore.delete _ p ml).2 = _
    rw [DataStore.delete.eq_def]
    split
    · rename_i e2 d2 heq
      have h1 : (Data.remove (DataStore.afterSave d []).data p ml).1 = .error e2 := by
        rw [heq]
      have h2 := remove_error_state h1
      rw [heq] at h2
      have h3 : d2 = (DataStore.afterSave d []).data := h2
      refine ⟨d, hd, ?_⟩
      show ({ DataStore.afterSave d [] with data := d2 } : DataStore) = _
      rw [h3]
    · rename_i u d2 heq
      have h1 := @remove_state_OK (DataStore.afterSave d []).data p ml hdataOK
      rw [heq] at h1
      exact ⟨d2, h1, rfl⟩
  | importTap content =>
    show ∃ d2, _ ∧ (DataStore.importTap _ content).2 = _
    rw [DataStore.importTap.eq_def]
    split
    · rename_i e2 d2 heq
      have h1 : (Data.importTap (DataStore.afterSave d []).data content).1 = .error e2 := by
        rw [heq]
      have h2 := importTap_error_state h1
      rw [heq] at h2
      have h3 : d2 = (DataStore.afterSave d []).data := h2
      refine ⟨d, hd, ?_⟩
      show ({ DataStore.afterSave d [] with data := d2 } : DataStore) = _
      rw [h3]
    · rename_i u d2 heq
      have h1 := importTap_state_OK hdataOK hg
      rw [heq] at h1
      exact ⟨d2, h1, rfl⟩

theorem runMutations_cons (s : DataStore) (m : Mutation) (ms : List Mutation) :
    runMutations s (m :: ms) = runMutations (s.applyMutation m).2 ms := by
  rw [runMutations, runMutations, List.foldl_cons]

theorem runMutations_preserves (ms : List Mutation) :
    ∀ (s : DataStore), (∃ d, (∀ e ∈ d, entryOKB e = true) ∧ s = DataStore.afterSave d []) →
      (∀ m ∈ ms, goodMutationB m = true) →
      ∃ d, (∀ e ∈ d, entryOKB e = true) ∧ runMutations s ms = DataStore.afterSave d [] := by
  induction ms with
  | nil =>
    intro s hs _
    simpa [runMutations] using hs
  | cons m rest ih =>
    intro s hs hg
    rw [runMutations_cons]
    exact ih _ (applyMutation_preserves hs (hg m (by simp)))
      (fun x hx => hg x (by simp [hx]))

theorem emptyStore_invariant :
    ∃ d, (∀ e ∈ d, entryOKB e = true) ∧ emptyStore = DataStore.afterSave d [] := by
  refine ⟨[], by simp, ?_⟩
  rfl

theorem afterSave_index_mem (d : DataState) (old : List IndexEntry) (e : IndexEntry) :
    e ∈ (DataStore.afterSave d old).index ↔ e ∈ (serializeFrom 0 (sortState d)).2 := by
  have h1 : (DataStore.afterSave d old).index
      = List.insertionSort ixLe (serializeFrom 0 (sortState d)).2 := by
    simp [DataStore.afterSave, stateToFileString_eq, Index.stateToFileString, Index.update]
  rw [h1]
  exact (List.perm_insertionSort ixLe _).mem_iff

theorem afterSave_header_bytes (d : DataState) (old : List IndexEntry) :
    ∀ e ∈ (DataStore.afterSave d old).index,
      (((DataStore.afterSave d old).dataFile).drop e.2).take (e.1.length + 3)
        = e.1 ++ ['-', '>', '\n'] := by
  intro e he
  rw [afterSave_dataFile]
  rw [afterSave_index_mem] at he
  have h2 := (serializeFrom_headers 0 (sortState d) e he).2
  simpa using h2

theorem applyMutation_shape (s : DataStore) (m : Mutation)
    (h : ∃ d old, s.index = (DataStore.afterSave d old).index
        ∧ s.dataFile = (DataStore.afterSave d old).dataFile) :
    ∃ d old, ((s.applyMutation m).2).index = (DataStore.afterSave d old).index
      ∧ ((s.applyMutation m).2).dataFile = (DataStore.afterSave d old).dataFile := by
  cases m with
  | addLink p l v =>
    show ∃ d old, ((DataStore.addLink s p l v).2).index = (DataStore.afterSave d old).index
      ∧ ((DataStore.addLink s p l v).2).dataFile = (DataStore.afterSave d old).dataFile
    rw [DataStore.addLink.eq_def]
    split
    · exact h
    · rename_i u d2 heq
      exact ⟨d2, s.index, rfl, rfl⟩
  | upsertLink p l v =>
    show ∃ d old, ((DataStore.upsertLink s p l v).2).index = (DataStore.afterSave d old).index
      ∧ ((DataStore.upsertLink s p l v).2).dataFile = (DataStore.afterSave d old).dataFile
    rw [DataStore.upsertLink.eq_def]
    split
    · exact h
    · rename_i u d2 heq
      exact ⟨d2, s.index, rfl, rfl⟩
  | delete p ml =>
    show ∃ d old, ((DataStore.delete s p ml).2).index = (DataStore.afterSave d old).index
      ∧ ((DataStore.delete s p ml).2).dataFile = (DataStore.afterSave d old).dataFile
    rw [DataStore.delete.eq_def]
    split
    · exact h
    · rename_i u d2 heq
      exact ⟨d2, s.index, rfl, rfl⟩
  | importTap content =>
    show ∃ d old, ((DataStore.importTap s content).2).index = (DataStore.afterSave d old).index
      ∧ ((DataStore.importTap s content).2).dataFile = (DataStore.afterSave d old).dataFile
    rw [DataStore.importTap.eq_def]
    split
    · exact h
    · rename_i u d2 heq
      exact ⟨d2, s.index, rfl, rfl⟩

theorem runMutations_shape (ms : List Mutation) :
    ∀ (s : DataStore),
      (∃ d old, s.index = (DataStore.afterSave d old).index
          ∧ s.dataFile = (DataStore.afterSave d old).dataFile) →
      ∃ d old, (runMutations s ms).index = (DataStore.afterSave d old).index
        ∧ (runMutations s ms).dataFile = (DataStore.afterSave d old).dataFile := by
  induction ms with
  | nil =>
    intro s hs
    simpa [runMutations] using hs
  | cons m rest ih =>
    intro s hs
    rw [runMutations_cons]
    exact ih _ (applyMutation_shape s m hs)

/-! ### Helpers for the remaining claims -/

theorem position_lt {α : Type} {p : α → Bool} :
    ∀ {l : List α} {i}, position p l = some i → i < l.length := by
  intro l
  induction l with
  | nil => intro i h; exact absurd h (by simp [position])
  | cons x xs ih =>
    intro i h
    simp only [position] at h
    by_cases hx : p x = true
    · rw [if_pos hx] at h
      simp only [Option.some.injEq] at h
      rw [← h]
      simp
    · rw [if_neg hx] at h
      cases hp : position p xs with
      | none => rw [hp] at h; exact absurd h (by simp)
      | some j =>
        rw [hp] at h
        simp only [Option.map_some', Option.some.injEq] at h
        have hj := ih hp
        rw [List.length_cons]
        omega

theorem splitOnce_some_shape {s : Str} {c : Char} :
    ∀ {a b : Str}, splitOnce s c = some (a, b) → s = a ++ c :: b := by
  induction s with
  | nil => intro a b h; exact absurd h (by simp [splitOnce])
  | cons x xs ih =>
    intro a b h
    simp only [splitOnce] at h
    by_cases hx : x = c
    · rw [if_pos hx] at h
      simp only [Option.some.injEq, Prod.mk.injEq] at h
      obtain ⟨rfl, rfl⟩ := h
      rw [hx]
      rfl
    · rw [if_neg hx] at h
      cases hs : splitOnce xs c with
      | none => rw [hs] at h; exact absurd h (by simp)
      | some ab =>
        obtain ⟨a0, b0⟩ := ab
        rw [hs] at h
        simp only [Option.map_some', Option.some.injEq, Prod.mk.injEq] at h
        obtain ⟨rfl, rfl⟩ := h
        rw [List.cons_append, ih hs]

theorem splitOnce_contains {s : Str} {c : Char} {ab : Str × Str}
    (h : splitOnce s c = some ab) : s.contains c = true := by
  obtain ⟨a, b⟩ := ab
  rw [splitOnce_some_shape h]
  exact List.elem_iff.mpr (by simp)

theorem upsertLinks_idem (links : List LinkValue) (l v : Str) (hl : trim l = l) :
    upsertLinksAux (upsertLinksAux links l v) l v = upsertLinksAux links l v := by
  induction links with
  | nil =>
    simp only [upsertLinksAux]
    rw [if_pos (by rw [trim_idem, hl])]
  | cons a rest ih =>
    obtain ⟨an, av⟩ := a
    simp only [upsertLinksAux]
    by_cases ha : trim an = l
    · rw [if_pos ha]
      simp only [upsertLinksAux]
      rw [if_pos ha]
    · rw [if_neg ha]
      simp only [upsertLinksAux]
      rw [if_neg ha, ih]

theorem upsertAux_idem (st : DataState) (p l v : Str) (hl : trim l = l) :
    Data.upsertAux (Data.upsertAux st p l v) p l v = Data.upsertAux st p l v := by
  induction st with
  | nil =>
    simp only [Data.upsertAux]
    rw [if_pos (by trivial)]
    rw [show upsertLinksAux [(trim l, trim v)] l v = [(trim l, trim v)] from by
      simp only [upsertLinksAux]
      rw [if_pos (by rw [trim_idem, hl])]]
  | cons q rest ih =>
    obtain ⟨qp, qlinks⟩ := q
    simp only [Data.upsertAux]
    by_cases hq : qp = p
    · rw [if_pos hq]
      simp only [Data.upsertAux]
      rw [if_pos hq, upsertLinks_idem qlinks l v hl]
    · rw [if_neg hq]
      simp only [Data.upsertAux]
      rw [if_neg hq, ih]

/-! ### The claims -/

/-- Claim C2 (amended): starting from an empty store, after
add_link("search-engines","google","https://google.com"),
add_link("search-engines","yahoo","https://yahoo.com"),
add_link("repo","gh","https://github.com"), the data file equals exactly
"repo->\n  gh|https://github.com\nsearch-engines->\n  google|https://google.com\n  yahoo|https://yahoo.com\n"
and the index file equals exactly "repo|0\nsearch-engines|31\n" (31, not the
claimed 26: the offset of "search-engines->\n" after the 7-byte "repo->\n"
header and the 24-byte "  gh|https://github.com\n" link line). -/
theorem claim_c2 :
    (runMutations emptyStore
      [.addLink (("search-engines").data) (("google").data) (("https://google.com").data),
       .addLink (("search-engines").data) (("yahoo").data) (("https://yahoo.com").data),
       .addLink (("repo").data) (("gh").data) (("https://github.com").data)]).dataFile
      = ("repo->\n  gh|https://github.com\nsearch-engines->\n  google|https://google.com\n  yahoo|https://yahoo.com\n").data
    ∧ (runMutations emptyStore
      [.addLink (("search-engines").data) (("google").data) (("https://google.com").data),
       .addLink (("search-engines").data) (("yahoo").data) (("https://yahoo.com").data),
       .addLink (("repo").data) (("gh").data) (("https://github.com").data)]).indexFile
      = ("repo|0\nsearch-engines|31\n").data := by
  constructor
  · decide
  · decide

/-- Counterexample for claim C2 as stated: the index file written after the
three adds is not "repo|0\nsearch-engines|26\n" — the byte offset of
"search-engines->\n" in the new serialization is 31, not 26. -/
theorem claim_c2_counterexample :
    (runMutations emptyStore
      [.addLink (("search-engines").data) (("google").data) (("https://google.com").data),
       .addLink (("search-engines").data) (("yahoo").data) (("https://yahoo.com").data),
       .addLink (("repo").data) (("gh").data) (("https://github.com").data)]).indexFile
      ≠ ("repo|0\nsearch-engines|26\n").data := by
  decide

/-- Claim C3 (code bug): the uniqueness check in Data::add_link compares the
trimmed stored link names against the raw input ("l.trim() == link"), not
against the trimmed input.  At the failing input — a parent "p" holding
link "l", then add_link("p", " l ", "w") — the call must fail with
LinkAlreadyExists under the claim (and spec invariant I1), but the code
returns Ok and appends a second link whose trimmed name is again "l",
breaking trimmed-name uniqueness. -/
theorem claim_c3 :
    (Data.addLink [((("p").data), [((("l").data), (("v").data))])]
        (("p").data) ((" l ").data) (("w").data)).1 = .ok ()
    ∧ (Data.addLink [((("p").data), [((("l").data), (("v").data))])]
        (("p").data) ((" l ").data) (("w").data)).2
      = [((("p").data), [((("l").data), (("v").data)), ((("l").data), (("w").data))])]
    ∧ trim ((" l ").data) = trim (("l").data) := by
  refine ⟨?_, ?_, ?_⟩
  · decide
  · decide
  · decide

/-- Claim C4 (amended): applying upsert_link(parent, link, value) twice in a
row yields the same state as applying it once, provided the link name
carries no surrounding whitespace (link.trim() == link).  (Without that
proviso the claim fails: the lookup compares trimmed stored names against
the raw input, so an untrimmed input link is never found again and is
appended a second time.) -/
theorem claim_c4 (st : DataState) (p l v : Str) (hl : trim l = l) :
    (Data.upsertLink (Data.upsertLink st p l v).2 p l v).2
      = (Data.upsertLink st p l v).2 := by
  cases hvp : validateParent p with
  | error e =>
    have h1 : ∀ s0, Data.upsertLink s0 p l v = (.error e, s0) := fun s0 => by
      simp only [Data.upsertLink.eq_def, hvp]
    simp only [h1]
  | ok u =>
    cases hvl : validateLink l with
    | error e =>
      have h1 : ∀ s0, Data.upsertLink s0 p l v = (.error e, s0) := fun s0 => by
        simp only [Data.upsertLink.eq_def, hvp, hvl]
      simp only [h1]
    | ok u2 =>
      have h1 : ∀ s0, Data.upsertLink s0 p l v = (.ok (), Data.upsertAux s0 p l v) :=
        fun s0 => by
          simp only [Data.upsertLink.eq_def, hvp, hvl]
      simp only [h1]
      exact upsertAux_idem st p l v hl

/-- Witness for claim C4 at a concrete input. -/
theorem claim_c4_witness :
    trim (("x").data) = ("x").data
    ∧ (Data.upsertLink (Data.upsertLink [] (("p").data) (("x").data) (("v").data)).2
        (("p").data) (("x").data) (("v").data)).2
      = (Data.upsertLink [] (("p").data) (("x").data) (("v").data)).2 :=
  ⟨by decide, claim_c4 [] (("p").data) (("x").data) (("v").data) (by decide)⟩

/-- Counterexample for claim C4 as stated: with the untrimmed link name
" x ", two consecutive upserts of the same (parent, link, value) do not
leave the state unchanged after the first — the second appends a duplicate
link. -/
theorem claim_c4_counterexample :
    (Data.upsertLink (Data.upsertLink [] (("p").data) ((" x ").data) (("v").data)).2
        (("p").data) ((" x ").data) (("v").data)).2
      ≠ (Data.upsertLink [] (("p").data) ((" x ").data) (("v").data)).2 := by
  decide

theorem findPOL_some {st : List IndexEntry} {parent : Str} {i : Nat}
    (hpos : position (fun e => trim e.1 == trim parent) st = some i) :
    Index.findParentOffsetAndLength st parent
      = if i = st.length - 1 then .ok ((st.getD i ([], 0)).2, 0)
        else .ok ((st.getD i ([], 0)).2,
            ((st.getD (i + 1) ([], 0)).2 + 2 ^ 64 - (st.getD i ([], 0)).2) % 2 ^ 64) := by
  rw [Index.findParentOffsetAndLength.eq_def, hpos]

/-- Claim C5 (amended): over indices whose offsets are non-decreasing in
file order and below 2^64 — as in every index the program itself writes —
Index::find_parent_offset_and_length answers for the FIRST entry whose
trimmed name equals the trimmed query.  When that entry is the last one,
the answer is (its offset, 0), the zero meaning read-to-EOF; when it is
not last, the answer is (its offset, next entry's offset minus its
offset); when no entry matches, the result is a ParseError.  (Over
arbitrary index states the claim fails: see the counterexample for
duplicate names, and the definition's note on the underflowing `usize`
subtraction for decreasing offsets.) -/
theorem claim_c5 (st : List IndexEntry) (parent : Str)
    (hmono : ∀ k, k + 1 < st.length →
      (st.getD k ([], 0)).2 ≤ (st.getD (k + 1) ([], 0)).2)
    (hbound : ∀ k, k < st.length → (st.getD k ([], 0)).2 < 2 ^ 64) :
    (position (fun e => trim e.1 == trim parent) st = none →
      Index.findParentOffsetAndLength st parent = .error .ParseError)
    ∧ ∀ i, position (fun e => trim e.1 == trim parent) st = some i →
      (i + 1 = st.length →
        Index.findParentOffsetAndLength st parent = .ok ((st.getD i ([], 0)).2, 0))
      ∧ (i + 1 < st.length →
        Index.findParentOffsetAndLength st parent
          = .ok ((st.getD i ([], 0)).2, (st.getD (i + 1) ([], 0)).2 - (st.getD i ([], 0)).2)) := by
  constructor
  · intro hnone
    rw [Index.findParentOffsetAndLength.eq_def, hnone]
  · intro i hpos
    have hlt : i < st.length := position_lt hpos
    constructor
    · intro hlast
      rw [findPOL_some hpos, if_pos (by omega)]
    · intro hmid
      rw [findPOL_some hpos, if_neg (by omega)]
      have h1 := hmono i hmid
      have h2 := hbound (i + 1) hmid
      have h3 : ((st.getD (i + 1) ([], 0)).2 + 2 ^ 64 - (st.getD i ([], 0)).2) % 2 ^ 64
          = (st.getD (i + 1) ([], 0)).2 - (st.getD i ([], 0)).2 := by
        omega
      rw [h3]

/-- Witness for claim C5 on a concrete three-entry index with increasing
offsets: a middle entry, the last entry, and a missing parent. -/
theorem claim_c5_witness :
    Index.findParentOffsetAndLength
        [((("a").data), 0), ((("b").data), 5), ((("c").data), 9)] (("b").data) = .ok (5, 4)
    ∧ Index.findParentOffsetAndLength
        [((("a").data), 0), ((("b").data), 5), ((("c").data), 9)] (("c").data) = .ok (9, 0)
    ∧ Index.findParentOffsetAndLength
        [((("a").data), 0), ((("b").data), 5), ((("c").data), 9)] (("z").data)
      = .error .ParseError := by
  refine ⟨?_, ?_, ?_⟩
  · have h := ((claim_c5 [((("a").data), 0), ((("b").data), 5), ((("c").data), 9)]
      (("b").data)
      (by
        intro k hk
        rcases k with _ | _ | k
        · decide
        · decide
        · simp only [List.length_cons, List.length_nil] at hk
          omega)
      (by
        intro k hk
        rcases k with _ | _ | _ | k
        · decide
        · decide
        · decide
        · simp only [List.length_cons, List.length_nil] at hk
          omega)).2 1 (by decide)).2 (by decide)
    exact h.trans (by decide)
  · have h := ((claim_c5 [((("a").data), 0), ((("b").data), 5), ((("c").data), 9)]
      (("c").data)
      (by
        intro k hk
        rcases k with _ | _ | k
        · decide
        · decide
        · simp only [List.length_cons, List.length_nil] at hk
          omega)
      (by
        intro k hk
        rcases k with _ | _ | _ | k
        · decide
        · decide
        · decide
        · simp only [List.length_cons, List.length_nil] at hk
          omega)).2 2 (by decide)).1 (by decide)
    exact h.trans (by decide)
  · exact (claim_c5 [((("a").data), 0), ((("b").data), 5), ((("c").data), 9)]
      (("z").data)
      (by
        intro k hk
        rcases k with _ | _ | k
        · decide
        · decide
        · simp only [List.length_cons, List.length_nil] at hk
          omega)
      (by
        intro k hk
        rcases k with _ | _ | _ | k
        · decide
        · decide
        · decide
        · simp only [List.length_cons, List.length_nil] at hk
          omega)).1 (by decide)

/-- Counterexample for claim C5 as stated: Index::parse_file accepts
duplicate parent names, e.g. the two-line file "a|0\na|7\n" loads to the
state [("a", 0), ("a", 7)].  There the queried parent "a" matches the LAST
index entry, so the claim requires the answer (7, 0), read from byte 7 to
EOF; but find_parent_offset_and_length positions on the FIRST match and
answers (0, 7). -/
theorem claim_c5_counterexample :
    Index.findParentOffsetAndLength
        [((("a").data), 0), ((("a").data), 7)] (("a").data) = .ok (0, 7)
    ∧ Index.findParentOffsetAndLength
        [((("a").data), 0), ((("a").data), 7)] (("a").data) ≠ .ok (7, 0) := by
  exact ⟨by decide, by decide⟩

/-- Claim C7 (amended): in Data::parse_file the header test runs first, so a
line is treated as a parent header whenever it ends with "->", even when it
contains '|'; a line that does not end with "->" and contains '|' is a link
line, split at the first '|' into a name (which can never fail the '|'
validation) and a value, both stored trimmed. -/
theorem claim_c7 (line : Str) (rest : List Str) (parent : Str) (links : List LinkValue)
    (acc : DataState) :
    (∀ a b, endsArrow line = false → splitOnce line '|' = some (a, b) →
      Data.parseLines (line :: rest) parent links acc
        = match validateLink a with
          | .error e => .error e
          | .ok _ => Data.parseLines rest parent (links ++ [(trim a, trim b)]) acc)
    ∧ (endsArrow line = true →
      Data.parseLines (line :: rest) parent links acc
        = match noParentError parent links with
          | .error e => .error e
          | .ok _ =>
            match validateParent (trimEndArrows line) with
            | .error e => .error e
            | .ok _ => Data.parseLines rest (trimEndArrows line)
                (updateState parent links acc).2 (updateState parent links acc).1) := by
  constructor
  · intro a b hends hsplit
    rw [Data.parseLines]
    rw [if_neg (by rw [hends]; exact Bool.noConfusion), if_pos (splitOnce_contains hsplit),
      hsplit]
  · intro hends
    rw [Data.parseLines]
    rw [if_pos hends]

/-- Witness for claim C7: the link-line branch at the concrete line "x|y". -/
theorem claim_c7_witness :
    Data.parseLines [(("x|y").data)] (("p").data) [] []
      = .ok [((("p").data), [((("x").data), (("y").data))])] := by
  have h := (claim_c7 (("x|y").data) [] (("p").data) [] []).1 (("x").data) (("y").data)
    (by decide) (by decide)
  exact h.trans (by decide)

/-- Counterexample for claim C7 as stated: the line "a|b->" contains '|', so
under the claim it would be a link line — an orphan link, making the file
below a ParseError.  The code instead tests ends_with("->") first and
parses "a|b->" as the header of a parent named "a|b". -/
theorem claim_c7_counterexample :
    (("a|b->").data).contains '|' = true
    ∧ Data.parseFile (("a|b->\n  c|d\n").data)
      = .ok [((("a|b").data), [((("c").data), (("d").data))])] := by
  refine ⟨?_, ?_⟩
  · decide
  · decide

/-- Claim C8: when DataStore::add_link fails with LinkAlreadyExists, the
store is left exactly as it was: the in-memory data and index states and
both on-disk file contents are unchanged (the failure happens before
save_to_file, so neither file is rewritten). -/
theorem claim_c8 (s : DataStore) (p l v : Str)
    (h : (DataStore.addLink s p l v).1 = .error .LinkAlreadyExists) :
    (DataStore.addLink s p l v).2 = s := by
  rw [DataStore.addLink.eq_def] at h ⊢
  split at h
  · rename_i e2 d2 heq
    have h1 : (Data.addLink s.data p l v).1 = .error e2 := by rw [heq]
    have h2 := addLink_error_state h1
    rw [heq] at h2
    have h3 : d2 = s.data := h2
    show ({ s with data := d2 } : DataStore) = s
    rw [h3]
  · exact absurd h (by simp)

/-- Witness for claim C8 at a concrete store holding link "l" under parent
"p". -/
theorem claim_c8_witness :
    (DataStore.addLink
        ⟨[((("p").data), [((("l").data), (("v").data))])], [], [], []⟩
        (("p").data) (("l").data) (("w").data)).1 = .error .LinkAlreadyExists
    ∧ (DataStore.addLink
        ⟨[((("p").data), [((("l").data), (("v").data))])], [], [], []⟩
        (("p").data) (("l").data) (("w").data)).2
      = ⟨[((("p").data), [((("l").data), (("v").data))])], [], [], []⟩ :=
  ⟨by decide, claim_c8 _ _ _ _ (by decide)⟩

/-- Claim C10: whenever Data::get with Some(link) succeeds, the returned
vector is the singleton vec![found_link], so ReadDataStore::read_link's
unchecked links[0] is always in bounds. -/
theorem claim_c10 (st : DataState) (p l : Str) (v : List LinkValue)
    (h : Data.get st p (some l) = .ok v) : v.length = 1 := by
  rw [Data.get.eq_def] at h
  split at h
  · exact absurd h (by simp)
  · split at h
    · exact absurd h (by simp)
    · split at h
      · rename_i heqlink
        exact absurd heqlink (by simp)
      · rename_i l2 heqlink
        split at h
        · exact absurd h (by simp)
        · split at h
          · rename_i lv hfind
            have h2 : [lv] = v := by
              injection h
            rw [← h2]
            rfl
          · exact absurd h (by simp)

/-- Witness for claim C10 at a concrete state and link. -/
theorem claim_c10_witness :
    Data.get [((("p").data), [((("l").data), (("v").data))])] (("p").data)
        (some (("l").data)) = .ok [((("l").data), (("v").data))]
    ∧ ([((("l").data), (("v").data))] : List LinkValue).length = 1 :=
  ⟨by decide, claim_c10 [((("p").data), [((("l").data), (("v").data))])]
    (("p").data) (("l").data) _ (by decide)⟩

/-- Claim C1 (amended): for every sequence of DataStore mutations applied
to an initially empty store, after each mutation every (parent, offset)
entry of the IndexFile points at the byte of the data file where the
literal substring "<parent>->\n" begins — this offset half holds
unconditionally — and, when the arguments of every mutation so far (and,
for imports, the parsed records) have trimmed parent names that are
non-empty, not reserved, free of newlines and not ending in "->", and
trimmed link names and values free of newlines ('|'-free for links, not
ending in "->" for values), the IndexFile's parent list moreover equals
the parents named by the header lines of the data file.  (The parent-list
half fails without the conditions, e.g. for a parent name containing a
newline — see the counterexample.) -/
theorem claim_c1 (ms : List Mutation) :
    (∀ e ∈ (runMutations emptyStore ms).index,
        (((runMutations emptyStore ms).dataFile).drop e.2).take (e.1.length + 3)
          = e.1 ++ ['-', '>', '\n'])
    ∧ ((∀ m ∈ ms, goodMutationB m = true) →
        Index.parents (runMutations emptyStore ms).index
          = fileParents (runMutations emptyStore ms).dataFile) := by
  constructor
  · obtain ⟨d, old, hix, hdf⟩ := runMutations_shape ms emptyStore ⟨[], [], rfl, rfl⟩
    intro e he
    rw [hix] at he
    rw [hdf]
    exact afterSave_header_bytes d old e he
  · intro hg
    obtain ⟨d, hd, heq⟩ := runMutations_preserves ms emptyStore emptyStore_invariant hg
    rw [heq]
    rw [afterSave_index hd [], afterSave_dataFile, Index.parents, serializeFrom_parents,
      fileParents_serialize (sortState d) (entryOK_sortState hd) 0]

/-- Witness for claim C1: one well-formed add_link from the empty store,
exercising the parent-list half's well-formedness hypothesis. -/
theorem claim_c1_witness :
    (∀ m ∈ [Mutation.addLink (("repo").data) (("gh").data) (("https://github.com").data)],
      goodMutationB m = true)
    ∧ Index.parents (runMutations emptyStore
        [Mutation.addLink (("repo").data) (("gh").data) (("https://github.com").data)]).index
      = fileParents (runMutations emptyStore
        [Mutation.addLink (("repo").data) (("gh").data) (("https://github.com").data)]).dataFile :=
  ⟨by decide,
   (claim_c1 [Mutation.addLink (("repo").data) (("gh").data) (("https://github.com").data)]).2
     (by decide)⟩

/-- Counterexample for claim C1 as stated: add_link accepts the parent name
"a\nb" (it is not reserved), the store then writes the data file
"a\nb->\n  l|v\n", whose only header line is "b->", so the index's parent
list ["a\nb"] differs from the parents present in the data file (["b"]). -/
theorem claim_c1_counterexample :
    Index.parents (runMutations emptyStore
        [Mutation.addLink (("a\nb").data) (("l").data) (("v").data)]).index
      ≠ fileParents (runMutations emptyStore
        [Mutation.addLink (("a\nb").data) (("l").data) (("v").data)]).dataFile := by
  decide

/-- Claim C6 (amended): for every state in which each parent has at least
one link and, after trimming, each parent name is non-empty, not reserved,
newline-free and does not end in "->", each link name is newline-free and
'|'-free, and each value is newline-free and does not end in "->": parsing
the canonical serialization succeeds, and serializing the parsed state
again produces byte-identical output.  (Unrestricted, the claim fails — see
the counterexample with a link-less parent.) -/
theorem claim_c6 (st : DataState) (h : invStateB st = true) :
    ∃ st2, Data.parseFile (Data.stateToFileString st).2.1 = .ok st2
      ∧ (Data.stateToFileString st2).2.1 = (Data.stateToFileString st).2.1 := by
  have hOK : ∀ e ∈ st, entryOKB e = true := List.all_eq_true.mp h
  refine ⟨canonState (sortState st), parseFile_serialize st hOK, ?_⟩
  rw [stateToFileString_eq (canonState (sortState st)), stateToFileString_eq st]
  show (serializeFrom 0 (sortState (canonState (sortState st)))).1
    = (serializeFrom 0 (sortState st)).1
  rw [sortState_canon, serializeFrom_canon]

/-- Witness for claim C6 at a concrete one-parent state. -/
theorem claim_c6_witness :
    invStateB [((("a").data), [((("l").data), (("v").data))])] = true
    ∧ ∃ st2,
      Data.parseFile
          (Data.stateToFileString [((("a").data), [((("l").data), (("v").data))])]).2.1
        = .ok st2
      ∧ (Data.stateToFileString st2).2.1
        = (Data.stateToFileString [((("a").data), [((("l").data), (("v").data))])]).2.1 :=
  ⟨by decide, claim_c6 [((("a").data), [((("l").data), (("v").data))])] (by decide)⟩

/-- Counterexample for claim C6 as stated: the state [("a", [])] serializes
to "a->\n", which parses back to the empty state (a parent with no links is
silently dropped), and re-serializing yields "" — not byte-identical. -/
theorem claim_c6_counterexample :
    Data.parseFile (Data.stateToFileString [((("a").data), ([] : List LinkValue))]).2.1
      = .ok []
    ∧ (Data.stateToFileString ([] : DataState)).2.1
      ≠ (Data.stateToFileString [((("a").data), ([] : List LinkValue))]).2.1 := by
  refine ⟨?_, ?_⟩
  · decide
  · decide

/-- Claim C9 (amended): for every sequence of DataStore mutations from the
empty store whose arguments (and imported records) are well-formed in the
sense of claim C1's conditions, the data file written by the final save
parses back without error.  (Unrestricted, the claim fails: values are
never validated, and a value containing a newline corrupts the file — see
the counterexample.) -/
theorem claim_c9 (ms : List Mutation) (hg : ∀ m ∈ ms, goodMutationB m = true) :
    ∃ st, Data.parseFile (runMutations emptyStore ms).dataFile = .ok st := by
  obtain ⟨d, hd, heq⟩ := runMutations_preserves ms emptyStore emptyStore_invariant hg
  rw [heq, afterSave_dataFile]
  refine ⟨canonState (sortState d), ?_⟩
  have h1 := parseFile_serialize d hd
  rw [stateToFileString_eq] at h1
  exact h1

/-- Witness for claim C9: a single well-formed add_link round-trips. -/
theorem claim_c9_witness :
    (∀ m ∈ [Mutation.addLink (("p").data) (("l").data) (("v").data)],
      goodMutationB m = true)
    ∧ ∃ st, Data.parseFile (runMutations emptyStore
        [Mutation.addLink (("p").data) (("l").data) (("v").data)]).dataFile = .ok st :=
  ⟨by decide,
   claim_c9 [Mutation.addLink (("p").data) (("l").data) (("v").data)] (by decide)⟩

/-- Counterexample for claim C9 as stated: add_link("p", "l", "a\nb")
succeeds (values are never validated), the store writes
"p->\n  l|a\nb\n", and parsing that file back fails with a ParseError on
the line "b". -/
theorem claim_c9_counterexample :
    Data.parseFile (runMutations emptyStore
        [Mutation.addLink (("p").data) (("l").data) (("a\nb").data)]).dataFile
      = .error .ParseError := by
  decide
